import Mathlib

/-!
Verification of pixel_shuffle.c: a generalized Hilbert ("gilbert") curve
generator, a coordinate-to-index mapper, and a permutation-based pixel
shuffler with a golden-ratio rotation offset.

The embedding is shallow and follows the C source line by line:

* `gen`, `gilbert2d` embed the recursive curve generator (lines 40-98).
  The C recursion carries a mutable output cursor; here `gen` returns the
  emitted coordinate list, and recursion is fuel-indexed (the C function
  has no termination guard; for the arguments reachable from `gilbert2d`
  we prove that fuel `width*height` suffices).
* `precompute_indices` embeds lines 107-113.
* `pixel_shuffle` embeds lines 122-167; the `volatile int g_progress`
  cell is modelled by the ordered list of values written to it.
* The C offset computation uses IEEE-754 double arithmetic
  (`(int)(((sqrt(5.0)-1.0)/2.0) * totalPixels + 0.5)`).  All values that
  occur are dyadic rationals, so doubles are modelled exactly by pairs
  `m * 2^e` (`Dy`) and round-to-nearest-even at 53 significant bits
  (`roundDy`); within the normal, non-overflowing range exercised here
  this is exactly IEEE binary64 behaviour.
-/

/-- C line 21: `floor_div2` is `x >> 1`, i.e. floor division by two
(the comment in the source spells out that it matches `Math.floor(x/2)`). -/
def floor_div2 (x : ℤ) : ℤ := Int.fdiv x 2

/-- C lines 71 and 75: the parity-nudge condition `(half % 2) && (full > 2)`
where `half` is the halved extent and `full` the full extent.  (The halved
extent is an `ABS` value, hence nonnegative, so C `%` agrees with `%` here.) -/
def nudge (half full : ℤ) : Bool := decide (half % 2 ≠ 0 ∧ 2 < full)

/-- The straight-run emission loops of `gen` (C lines 47-52 and 56-61):
starting from `(x, y)`, emit `n` points stepping by `(dx, dy)`. -/
def straightRun (x y dx dy : ℤ) (n : ℕ) : List (ℤ × ℤ) :=
  (List.range n).map fun i : ℕ => (x + dx * (i : ℤ), y + dy * (i : ℤ))

/-- C lines 40-83: the recursive generalized-Hilbert generator.  The C
version appends interleaved coordinates to a global buffer through a
shared cursor; the embedding returns the list of emitted `(x, y)` pairs.
`fuel` bounds the recursion depth; `none` means fuel ran out. -/
def gen : ℕ → ℤ → ℤ → ℤ → ℤ → ℤ → ℤ → Option (List (ℤ × ℤ))
  | 0, _, _, _, _, _, _ => none
  | fuel + 1, x, y, ax, ay, bx, b_y =>
    let w := |ax + ay|
    let h := |bx + b_y|
    let dax := ax.sign
    let day := ay.sign
    let dbx := bx.sign
    let dby := b_y.sign
    if h = 1 then
      some (straightRun x y dax day w.toNat)
    else if w = 1 then
      some (straightRun x y dbx dby h.toNat)
    else
      let ax2 := floor_div2 ax
      let ay2 := floor_div2 ay
      let bx2 := floor_div2 bx
      let by2 := floor_div2 b_y
      let w2 := |ax2 + ay2|
      let h2 := |bx2 + by2|
      if 3 * h < 2 * w then
        let ax2 := if nudge w2 w then ax2 + dax else ax2
        let ay2 := if nudge w2 w then ay2 + day else ay2
        (gen fuel x y ax2 ay2 bx b_y).bind fun l1 =>
        (gen fuel (x + ax2) (y + ay2) (ax - ax2) (ay - ay2) bx b_y).bind fun l2 =>
        some (l1 ++ l2)
      else
        let bx2 := if nudge h2 h then bx2 + dbx else bx2
        let by2 := if nudge h2 h then by2 + dby else by2
        (gen fuel x y bx2 by2 ax2 ay2).bind fun l1 =>
        (gen fuel (x + bx2) (y + by2) ax ay (bx - bx2) (b_y - by2)).bind fun l2 =>
        (gen fuel (x + (ax - dax) + (bx2 - dbx)) (y + (ay - day) + (by2 - dby))
            (-bx2) (-by2) (-(ax - ax2)) (-(ay - ay2))).bind fun l3 =>
        some (l1 ++ l2 ++ l3)

/-- C lines 90-98: `gilbert2d(width, height, out)`.  Fuel `width*height`
(the grid area) is enough, as proved below. -/
def gilbert2d (width height : ℤ) : Option (List (ℤ × ℤ)) :=
  if height ≤ width then
    gen (width.toNat * height.toNat) 0 0 width 0 0 height
  else
    gen (width.toNat * height.toNat) 0 0 0 height width 0

/-- The flat interleaved `int32` curve buffer written by `gilbert2d`
(C line 88: `[x0,y0, x1,y1, ...]`). -/
def flattenCurve : List (ℤ × ℤ) → List ℤ
  | [] => []
  | p :: r => p.1 :: p.2 :: flattenCurve r

/-- C lines 107-113: `precompute_indices(width, totalPixels, curvePtr, idxPtr)`
writes `idxPtr[i] = curvePtr[2i] + curvePtr[2i+1] * width` for
`0 <= i < totalPixels`.  The input pointer is a total function (buffer),
the output buffer is returned as the list of written values in order. -/
def precompute_indices (width : ℤ) (totalPixels : ℤ) (curvePtr : ℕ → ℤ) : List ℤ :=
  (List.range totalPixels.toNat).map fun i => curvePtr (2 * i) + curvePtr (2 * i + 1) * width

/-- Dyadic rational `m * 2^e`: the exact value of an IEEE binary64 double
within the normal range (no overflow/underflow occurs in this program). -/
structure Dy where
  m : ℤ
  e : ℤ
  deriving DecidableEq

/-- Exact rational value of a dyadic number (proof-side only). -/
def Dy.val (d : Dy) : ℚ := (d.m : ℚ) * 2 ^ d.e

/-- Structural bit-length helper (`blAux fuel n` with `n ≤ fuel`). -/
def blAux : ℕ → ℕ → ℕ
  | 0, _ => 0
  | fuel + 1, n => if n = 0 then 0 else blAux fuel (n / 2) + 1

/-- Number of binary digits of `n`; `bitlen n = 0` iff `n = 0`, otherwise
`2^(bitlen n - 1) ≤ n < 2^(bitlen n)`. -/
def bitlen (n : ℕ) : ℕ := blAux n n

/-- Round `m / 2^s` (with `m ≥ 0`) to the nearest integer, ties to even:
the IEEE-754 default rounding applied to an integer mantissa. -/
def rhe2p (m : ℤ) (s : ℕ) : ℤ :=
  let d : ℤ := 2 ^ s
  let q := m / d
  let r := m % d
  if 2 * r < d then q else if d < 2 * r then q + 1 else if q % 2 = 0 then q else q + 1

/-- Round a positive mantissa to at most 53 significant bits. -/
def posRoundDy (m e : ℤ) : Dy :=
  let b := bitlen m.toNat
  if b ≤ 53 then ⟨m, e⟩
  else ⟨rhe2p m (b - 53), e + (b - 53)⟩

/-- IEEE binary64 round-to-nearest-even on exact dyadic values (normal,
non-overflowing range: the exponent is unbounded in the model). -/
def roundDy (d : Dy) : Dy :=
  if d.m = 0 then ⟨0, 0⟩
  else if d.m < 0 then
    let r := posRoundDy (-d.m) d.e
    ⟨-r.m, r.e⟩
  else posRoundDy d.m d.e

/-- Exact sum of two dyadic values (aligning exponents). -/
def addDy (a b : Dy) : Dy :=
  if a.e ≤ b.e then ⟨a.m + b.m * 2 ^ (b.e - a.e).toNat, a.e⟩
  else ⟨a.m * 2 ^ (a.e - b.e).toNat + b.m, b.e⟩

/-- C cast `(int)` on a double: truncation toward zero. -/
def truncDy (d : Dy) : ℤ :=
  if 0 ≤ d.e then d.m * 2 ^ d.e.toNat else Int.tdiv d.m (2 ^ (-d.e).toNat)

/-- The IEEE binary64 value of `sqrt(5.0)`: the correctly rounded square
root of 5, namely `5035177455121576 * 2^-51` (justified by
`sqrt5D_approx` below: it is within half an ulp of the real root). -/
def sqrt5D : Dy := ⟨5035177455121576, -51⟩

/-- C line 129: `double golden = (__builtin_sqrt(5.0) - 1.0) / 2.0;`
subtraction rounds, division by two is exact but still passes through
the rounding step. -/
def goldenDy : Dy := roundDy ⟨(roundDy (addDy sqrt5D ⟨-1, 0⟩)).m, (roundDy (addDy sqrt5D ⟨-1, 0⟩)).e - 1⟩

/-- C line 130: `int offset = (int)(golden * totalPixels + 0.5);`.
The int-to-double conversion of `totalPixels` is exact (`|n| < 2^53`),
the product and the sum each round once, then the cast truncates. -/
def offsetImpl (n : ℤ) : ℤ :=
  truncDy (roundDy (addDy (roundDy ⟨goldenDy.m * n, goldenDy.e⟩) ⟨1, -1⟩))

/-- Two's-complement wrap-around of 32-bit `int` arithmetic: the module
is compiled to wasm32 (see the C file header), where an `i32` product
reduces modulo `2^32` into `[-2^31, 2^31)`. -/
def wrap32 (x : ℤ) : ℤ := (x + 2147483648) % 4294967296 - 2147483648

/-- State of the `pixel_shuffle` loop: the destination buffer, the next
progress-report iteration, and the ordered list of values written to the
shared progress cell `g_progress`. -/
structure ShuffleState where
  dst : ℤ → ℕ
  nextReport : ℤ
  writes : List ℤ

/-- One iteration of the `pixel_shuffle` loop (C lines 138-149 resp.
152-164; the two branches differ only in the copy direction).  The
progress value `(i * 100) / totalPixels` is 32-bit `int` arithmetic:
the product `i * 100` wraps (`wrap32`) and the signed division
truncates toward zero (`Int.tdiv`). -/
def shuffleStep (totalPixels offset reportInterval isEncrypt : ℤ)
    (idxPtr : ℤ → ℤ) (srcPtr : ℤ → ℕ) (st : ShuffleState) (k : ℕ) : ShuffleState :=
  let i : ℤ := k
  let p1 := idxPtr i
  let j0 := i + offset
  let j := if totalPixels ≤ j0 then j0 - totalPixels else j0
  let p2 := idxPtr j
  let dst' := if isEncrypt ≠ 0 then Function.update st.dst p2 (srcPtr p1)
              else Function.update st.dst p1 (srcPtr p2)
  if i = st.nextReport then
    { dst := dst', nextReport := st.nextReport + reportInterval,
      writes := st.writes ++ [Int.tdiv (wrap32 (i * 100)) totalPixels] }
  else
    { dst := dst', nextReport := st.nextReport, writes := st.writes }

/-- The `for (i = 0; i < totalPixels; i++)` loop of `pixel_shuffle`. -/
def shuffleLoop (totalPixels offset reportInterval isEncrypt : ℤ)
    (idxPtr : ℤ → ℤ) (srcPtr : ℤ → ℕ) (n : ℕ) (st : ShuffleState) : ShuffleState :=
  (List.range n).foldl (shuffleStep totalPixels offset reportInterval isEncrypt idxPtr srcPtr) st

/-- C lines 122-167: `pixel_shuffle(totalPixels, isEncrypt, idxPtr, srcPtr, dstPtr)`.
Buffers are total functions; the result is the final destination buffer
together with the ordered list of writes to the progress cell (the final
unconditional `g_progress = 100` of line 166 included).  Pixel values are
opaque 32-bit words: the code only copies them, so they are modelled as
plain naturals. -/
def pixel_shuffle (totalPixels isEncrypt : ℤ) (idxPtr : ℤ → ℤ)
    (srcPtr : ℤ → ℕ) (dstPtr : ℤ → ℕ) : (ℤ → ℕ) × List ℤ :=
  let offset := offsetImpl totalPixels
  let ri := Int.tdiv totalPixels 20
  let reportInterval := if ri < 1 then 1 else ri
  let fin := shuffleLoop totalPixels offset reportInterval isEncrypt idxPtr srcPtr
    totalPixels.toNat ⟨dstPtr, 0, []⟩
  (fin.dst, fin.writes ++ [100])

/-- The rotated partner index of loop iteration `k` in `pixel_shuffle`
(C lines 139-143 resp. 153-157): `j = i + offset`, reduced by
`totalPixels` once when it overflows. -/
def jmap (n off : ℤ) (k : ℕ) : ℤ :=
  if n ≤ (k : ℤ) + off then (k : ℤ) + off - n else (k : ℤ) + off

/-- The destination-buffer effect of one `pixel_shuffle` iteration,
extracted from `shuffleStep`: encrypt writes `src[idx[i]]` to
`dst[idx[j]]`, decrypt writes `src[idx[j]]` to `dst[idx[i]]`. -/
def updSeq (n off enc : ℤ) (idx : ℤ → ℤ) (src : ℤ → ℕ) (d : ℤ → ℕ) (k : ℕ) : ℤ → ℕ :=
  if enc ≠ 0 then Function.update d (idx (jmap n off k)) (src (idx (k:ℤ)))
  else Function.update d (idx (k:ℤ)) (src (idx (jmap n off k)))

/-- Argument tuple of a `gen` invocation (used to state reachability
invariants about the recursion). -/
structure GArgs where
  gx : ℤ
  gy : ℤ
  gax : ℤ
  gay : ℤ
  gbx : ℤ
  gby : ℤ
  deriving DecidableEq

/-- The argument tuples of the recursive calls `gen` makes from a given
invocation (mirrors the branch structure of C lines 40-83: base cases
recurse on nothing; the 2:3 split decides a 2-way or 3-way subdivision). -/
def genChildren (a : GArgs) : List GArgs :=
  let w := |a.gax + a.gay|
  let h := |a.gbx + a.gby|
  let dax := a.gax.sign
  let day := a.gay.sign
  let dbx := a.gbx.sign
  let dby := a.gby.sign
  if h = 1 then []
  else if w = 1 then []
  else
    let ax2 := floor_div2 a.gax
    let ay2 := floor_div2 a.gay
    let bx2 := floor_div2 a.gbx
    let by2 := floor_div2 a.gby
    let w2 := |ax2 + ay2|
    let h2 := |bx2 + by2|
    if 3 * h < 2 * w then
      let ax2 := if nudge w2 w then ax2 + dax else ax2
      let ay2 := if nudge w2 w then ay2 + day else ay2
      [⟨a.gx, a.gy, ax2, ay2, a.gbx, a.gby⟩,
       ⟨a.gx + ax2, a.gy + ay2, a.gax - ax2, a.gay - ay2, a.gbx, a.gby⟩]
    else
      let bx2 := if nudge h2 h then bx2 + dbx else bx2
      let by2 := if nudge h2 h then by2 + dby else by2
      [⟨a.gx, a.gy, bx2, by2, ax2, ay2⟩,
       ⟨a.gx + bx2, a.gy + by2, a.gax, a.gay, a.gbx - bx2, a.gby - by2⟩,
       ⟨a.gx + (a.gax - dax) + (bx2 - dbx), a.gy + (a.gay - day) + (by2 - dby),
        -bx2, -by2, -(a.gax - ax2), -(a.gay - ay2)⟩]

/-- The root invocation performed by `gilbert2d` (C lines 94-97). -/
def gilbertRoot (width height : ℤ) : GArgs :=
  if height ≤ width then ⟨0, 0, width, 0, 0, height⟩ else ⟨0, 0, 0, height, width, 0⟩

/-- `Reachable r s`: the argument tuple `s` occurs somewhere in the
recursion tree rooted at `r`. -/
def Reachable (r s : GArgs) : Prop :=
  Relation.ReflTransGen (fun p q => q ∈ genChildren p) r s

/-- Area measure of an invocation: the product of the two extents. -/
def genArea (a : GArgs) : ℕ := (|a.gax + a.gay| * |a.gbx + a.gby|).toNat

/-- Grid point at rectangle index `(i, j)`: origin `(x, y)`, orientation
sign `σ` (`1` or `-1`), first index along the x-axis. -/
def ptv (x y σ : ℤ) (i j : ℕ) : ℤ × ℤ := (x + σ * i, y + σ * j)

/-- Chebyshev adjacency: the two points differ by at most one in each
coordinate. -/
def adjC (p q : ℤ × ℤ) : Prop := |p.1 - q.1| ≤ 1 ∧ |p.2 - q.2| ≤ 1

/-- Full specification of a `gen` result for an invocation normalised to
first vector `(σ*w, 0)` and second vector `(0, σ*h)`: the emitted list
covers the `w × h` rectangle at `(x, y)` exactly once, starts at `(x, y)`,
ends at one of three possible corner-adjacent cells, and all consecutive
points are Chebyshev-adjacent. -/
structure GSpec (x y σ : ℤ) (w h : ℕ) (l : List (ℤ × ℤ)) : Prop where
  len : l.length = w * h
  mem : ∀ q, q ∈ l ↔ ∃ i j, i < w ∧ j < h ∧ q = ptv x y σ i j
  nodup : l.Nodup
  head : l.head? = some (x, y)
  last : (w = 1 ∧ l.getLast? = some (ptv x y σ 0 (h - 1)))
       ∨ (l.getLast? = some (ptv x y σ (w - 1) 0))
       ∨ (w % 2 = 1 ∧ 3 ≤ w ∧ l.getLast? = some (ptv x y σ (w - 2) 0))
  chain : l.Chain' adjC

/-- Transposed variant of `GSpec`, describing an invocation whose first
vector points along the y-axis: `wx` is the x-extent (second vector),
`th` the extent of the first vector. -/
structure GSpecT (x y σ : ℤ) (wx th : ℕ) (l : List (ℤ × ℤ)) : Prop where
  len : l.length = wx * th
  mem : ∀ q, q ∈ l ↔ ∃ i j, i < wx ∧ j < th ∧ q = ptv x y σ i j
  nodup : l.Nodup
  head : l.head? = some (x, y)
  last : (th = 1 ∧ l.getLast? = some (ptv x y σ (wx - 1) 0))
       ∨ (l.getLast? = some (ptv x y σ 0 (th - 1)))
       ∨ (th % 2 = 1 ∧ 3 ≤ th ∧ l.getLast? = some (ptv x y σ 0 (th - 2)))
  chain : l.Chain' adjC

/-- Magnitude of the floor-halved extent: `floor_div2` of `σ*n` has
magnitude `n/2` when `σ = 1` and `(n+1)/2` when `σ = -1`. -/
def hf (σ : ℤ) (n : ℕ) : ℕ := if σ = 1 then n / 2 else (n + 1) / 2

/-- Magnitude of the halved extent after the parity nudge of C lines 71/75. -/
def ns (σ : ℤ) (n : ℕ) : ℕ := if hf σ n % 2 ≠ 0 ∧ 2 < n then hf σ n + 1 else hf σ n

/-- Normalised shape of reachable `gen` arguments: the two step vectors
are perpendicular, axis-aligned, both of positive extent and the same
orientation sign, and a negatively-oriented first vector has extent `1`
or even extent. -/
def NormArgs (a : GArgs) : Prop :=
  ∃ σ : ℤ, ∃ w h : ℕ, (σ = 1 ∨ σ = -1) ∧ 1 ≤ w ∧ 1 ≤ h ∧
    (σ = -1 → w = 1 ∨ w % 2 = 0) ∧
    ((a.gax = σ * w ∧ a.gay = 0 ∧ a.gbx = 0 ∧ a.gby = σ * h) ∨
     (a.gax = 0 ∧ a.gay = σ * w ∧ a.gbx = σ * h ∧ a.gby = 0))

/-- Transposition of a `gen` argument tuple: swap the roles of the x and
y coordinates (used to reduce axis-swapped recursive calls to the
x-oriented case). -/
def swapArgs (a : GArgs) : GArgs := ⟨a.gy, a.gx, a.gay, a.gax, a.gby, a.gbx⟩

theorem abs_sigma_mul {σ : ℤ} (hσ : σ = 1 ∨ σ = -1) (n : ℕ) : |σ * n| = n := by
  rcases hσ with rfl | rfl <;> simp [Int.abs_natCast]

theorem sign_sigma_mul {σ : ℤ} (hσ : σ = 1 ∨ σ = -1) {n : ℕ} (hn : 1 ≤ n) :
    (σ * n).sign = σ := by
  have h0 : (0 : ℤ) < n := by exact_mod_cast hn
  rcases hσ with rfl | rfl
  · simpa using Int.sign_eq_one_of_pos h0
  · have : (-1 : ℤ) * n = -(n : ℤ) := by ring
    rw [this, Int.sign_neg, Int.sign_eq_one_of_pos h0]

theorem floor_div2_sigma {σ : ℤ} (hσ : σ = 1 ∨ σ = -1) (n : ℕ) :
    floor_div2 (σ * n) = σ * hf σ n := by
  rcases hσ with rfl | rfl
  · unfold floor_div2 hf
    rw [Int.fdiv_eq_ediv _ (by norm_num), if_pos rfl]
    omega
  · unfold floor_div2 hf
    rw [Int.fdiv_eq_ediv _ (by norm_num), if_neg (by norm_num : ¬ ((-1 : ℤ) = 1))]
    omega

theorem nudge_natCast (a b : ℕ) :
    nudge (a : ℤ) (b : ℤ) = decide (a % 2 ≠ 0 ∧ 2 < b) := by
  unfold nudge
  rw [decide_eq_decide]
  omega

theorem ptv_inj {σ : ℤ} (hσ : σ = 1 ∨ σ = -1) {x y : ℤ} {i j i' j' : ℕ} :
    ptv x y σ i j = ptv x y σ i' j' ↔ i = i' ∧ j = j' := by
  rcases hσ with rfl | rfl <;> (simp only [ptv, Prod.mk.injEq]; omega)

theorem adjC_ptv {σ : ℤ} (hσ : σ = 1 ∨ σ = -1) {x y : ℤ} {i j i' j' : ℕ} :
    adjC (ptv x y σ i j) (ptv x y σ i' j') ↔
      ((i : ℤ) - i' ≤ 1 ∧ (i' : ℤ) - i ≤ 1 ∧ (j : ℤ) - j' ≤ 1 ∧ (j' : ℤ) - j ≤ 1) := by
  rcases hσ with rfl | rfl <;> (simp only [adjC, ptv, abs_le]; omega)

theorem ptv_zero (x y σ : ℤ) : ptv x y σ 0 0 = (x, y) := by
  simp [ptv]

theorem ptv_shift_a (x y σ : ℤ) (s i j : ℕ) :
    ptv (x + σ * s) y σ i j = ptv x y σ (s + i) j := by
  simp only [ptv, Prod.mk.injEq]
  constructor <;> push_cast <;> ring

theorem ptv_shift_b (x y σ : ℤ) (t i j : ℕ) :
    ptv x (y + σ * t) σ i j = ptv x y σ i (t + j) := by
  simp only [ptv, Prod.mk.injEq]
  constructor <;> push_cast <;> ring

theorem ptv_swap (x y σ : ℤ) (i j : ℕ) :
    Prod.swap (ptv y x σ i j) = ptv x y σ j i := by
  simp [ptv, Prod.swap]

theorem ptv_flip (w t : ℕ) (x y σ : ℤ) {a b : ℕ} (ha : a < w) (hb : b < t) :
    ptv (x + σ * ((w : ℤ) - 1)) (y + σ * ((t : ℤ) - 1)) (-σ) a b =
      ptv x y σ (w - 1 - a) (t - 1 - b) := by
  simp only [ptv, Prod.mk.injEq]
  have h1 : ((w - 1 - a : ℕ) : ℤ) = (w : ℤ) - 1 - a := by omega
  have h2 : ((t - 1 - b : ℕ) : ℤ) = (t : ℤ) - 1 - b := by omega
  rw [h1, h2]
  constructor <;> ring

theorem straightRun_eq_X (x y σ : ℤ) (n : ℕ) :
    straightRun x y σ 0 n = (List.range n).map fun i => ptv x y σ i 0 := by
  unfold straightRun
  apply List.map_congr_left
  intro i _
  simp [ptv]

theorem straightRun_eq_Y (x y σ : ℤ) (n : ℕ) :
    straightRun x y 0 σ n = (List.range n).map fun i => ptv x y σ 0 i := by
  unfold straightRun
  apply List.map_congr_left
  intro i _
  simp [ptv]

theorem straightRun_swap (x y dx dy : ℤ) (n : ℕ) :
    List.map Prod.swap (straightRun x y dx dy n) = straightRun y x dy dx n := by
  unfold straightRun
  rw [List.map_map]
  apply List.map_congr_left
  intro i _
  rfl

theorem head?_map_range {α : Type} (n : ℕ) (hn : 1 ≤ n) (f : ℕ → α) :
    ((List.range n).map f).head? = some (f 0) := by
  obtain ⟨k, rfl⟩ : ∃ k, n = k + 1 := ⟨n - 1, by omega⟩
  rw [List.range_succ_eq_map]
  simp

theorem getLast?_map_range {α : Type} (n : ℕ) (hn : 1 ≤ n) (f : ℕ → α) :
    ((List.range n).map f).getLast? = some (f (n - 1)) := by
  obtain ⟨k, rfl⟩ : ∃ k, n = k + 1 := ⟨n - 1, by omega⟩
  rw [List.range_succ, List.map_append, List.getLast?_append]
  simp

theorem chain'_map_range {α : Type} (n : ℕ) (f : ℕ → α) (R : α → α → Prop)
    (H : ∀ m, m + 1 < n → R (f m) (f (m + 1))) :
    List.Chain' R ((List.range n).map f) := by
  rw [List.chain'_map]
  cases n with
  | zero => simp
  | succ k =>
      rw [List.chain'_range_succ]
      intro m hm
      exact H m (by omega)

theorem nodup_map_range {α : Type} (n : ℕ) (f : ℕ → α)
    (hinj : ∀ i j, i < n → j < n → f i = f j → i = j) :
    ((List.range n).map f).Nodup := by
  apply List.Nodup.map_on _ (List.nodup_range n)
  intro i hi j hj h
  exact hinj i j (List.mem_range.mp hi) (List.mem_range.mp hj) h

theorem GSpec_straight_X {σ : ℤ} (hσ : σ = 1 ∨ σ = -1) (x y : ℤ) {w : ℕ} (hw : 1 ≤ w) :
    GSpec x y σ w 1 (straightRun x y σ 0 w) := by
  rw [straightRun_eq_X]
  refine ⟨by simp, ?_, ?_, ?_, ?_, ?_⟩
  · intro q
    simp only [List.mem_map, List.mem_range]
    constructor
    · rintro ⟨i, hi, rfl⟩
      exact ⟨i, 0, hi, by omega, rfl⟩
    · rintro ⟨i, j, hi, hj, rfl⟩
      obtain rfl : j = 0 := by omega
      exact ⟨i, hi, rfl⟩
  · exact nodup_map_range _ _ fun i j _ _ h => ((ptv_inj hσ).mp h).1
  · rw [head?_map_range _ hw, ptv_zero]
  · exact Or.inr (Or.inl (by rw [getLast?_map_range _ hw]))
  · refine chain'_map_range _ _ _ fun m hm => ?_
    rw [adjC_ptv hσ]
    omega

theorem GSpec_straight_Y {σ : ℤ} (hσ : σ = 1 ∨ σ = -1) (x y : ℤ) {h : ℕ} (hh : 1 ≤ h) :
    GSpec x y σ 1 h (straightRun x y 0 σ h) := by
  rw [straightRun_eq_Y]
  refine ⟨by simp, ?_, ?_, ?_, ?_, ?_⟩
  · intro q
    simp only [List.mem_map, List.mem_range]
    constructor
    · rintro ⟨j, hj, rfl⟩
      exact ⟨0, j, by omega, hj, rfl⟩
    · rintro ⟨i, j, hi, hj, rfl⟩
      obtain rfl : i = 0 := by omega
      exact ⟨j, hj, rfl⟩
  · exact nodup_map_range _ _ fun i j _ _ h => ((ptv_inj hσ).mp h).2
  · rw [head?_map_range _ hh, ptv_zero]
  · exact Or.inl ⟨rfl, by rw [getLast?_map_range _ hh]⟩
  · refine chain'_map_range _ _ _ fun m hm => ?_
    rw [adjC_ptv hσ]
    omega

theorem adjC_swap {p q : ℤ × ℤ} (h : adjC p q) : adjC (Prod.swap p) (Prod.swap q) := by
  exact ⟨h.2, h.1⟩

/-- Transport a normalised specification through the coordinate swap:
this is how the axis-swapped recursive calls of the 3-way split are
brought back to parent coordinates. -/
theorem GSpec.transpose {σ : ℤ} (hσ : σ = 1 ∨ σ = -1) {x y : ℤ} {t m : ℕ}
    {L : List (ℤ × ℤ)} (H : GSpec y x σ t m L) :
    GSpecT x y σ m t (L.map Prod.swap) := by
  refine ⟨?_, ?_, ?_, ?_, ?_, ?_⟩
  · rw [List.length_map, H.len, Nat.mul_comm]
  · intro q
    constructor
    · intro hq
      obtain ⟨p, hp, rfl⟩ := List.mem_map.mp hq
      obtain ⟨i, j, hi, hj, rfl⟩ := (H.mem p).mp hp
      exact ⟨j, i, hj, hi, (ptv_swap _ _ _ _ _).symm⟩
    · rintro ⟨i, j, hi, hj, rfl⟩
      refine List.mem_map.mpr ⟨ptv y x σ j i, (H.mem _).mpr ⟨j, i, hj, hi, rfl⟩, ?_⟩
      exact ptv_swap _ _ _ _ _
  · exact H.nodup.map Prod.swap_injective
  · rw [List.head?_map, H.head]
    simp [Prod.swap]
  · rcases H.last with ⟨h1, hl⟩ | hl | ⟨hodd, h3, hl⟩
    · exact Or.inl ⟨h1, by rw [List.getLast?_map, hl]; simp [ptv_swap]⟩
    · exact Or.inr (Or.inl (by rw [List.getLast?_map, hl]; simp [ptv_swap]))
    · exact Or.inr (Or.inr ⟨hodd, h3, by rw [List.getLast?_map, hl]; simp [ptv_swap]⟩)
  · rw [List.chain'_map]
    exact H.chain.imp fun a b hab => adjC_swap hab

theorem bind2_map (o1 o2 : Option (List (ℤ × ℤ))) :
    ((Option.map (List.map Prod.swap) o1).bind fun l1 =>
      (Option.map (List.map Prod.swap) o2).bind fun l2 => some (l1 ++ l2)) =
    Option.map (List.map Prod.swap) (o1.bind fun l1 => o2.bind fun l2 => some (l1 ++ l2)) := by
  cases o1 <;> cases o2 <;> simp

theorem bind3_map (o1 o2 o3 : Option (List (ℤ × ℤ))) :
    ((Option.map (List.map Prod.swap) o1).bind fun l1 =>
      (Option.map (List.map Prod.swap) o2).bind fun l2 =>
      (Option.map (List.map Prod.swap) o3).bind fun l3 => some (l1 ++ l2 ++ l3)) =
    Option.map (List.map Prod.swap)
      (o1.bind fun l1 => o2.bind fun l2 => o3.bind fun l3 => some (l1 ++ l2 ++ l3)) := by
  cases o1 <;> cases o2 <;> cases o3 <;> simp

/-- The C generator is symmetric in the coordinates: swapping the roles
of x and y everywhere swaps every emitted pair. -/
theorem gen_swap (fuel : ℕ) : ∀ x y ax ay bx b_y : ℤ,
    gen fuel y x ay ax b_y bx = Option.map (List.map Prod.swap) (gen fuel x y ax ay bx b_y) := by
  induction fuel with
  | zero => intro x y ax ay bx b_y; rfl
  | succ f ih =>
    intro x y ax ay bx b_y
    simp only [gen]
    simp only [show ay + ax = ax + ay from add_comm _ _,
      show b_y + bx = bx + b_y from add_comm _ _,
      show floor_div2 ay + floor_div2 ax = floor_div2 ax + floor_div2 ay from add_comm _ _,
      show floor_div2 b_y + floor_div2 bx = floor_div2 bx + floor_div2 b_y from add_comm _ _]
    set A := floor_div2 ax with hA
    set B := floor_div2 ay with hB
    set C := floor_div2 bx with hC
    set D := floor_div2 b_y with hD
    split_ifs with h1 h2 h3 h4
    · simp only [Option.map_some', straightRun_swap]
    · simp only [Option.map_some', straightRun_swap]
    · rw [ih x y (A + ax.sign) (B + ay.sign) bx b_y,
        ih (x + (A + ax.sign)) (y + (B + ay.sign)) (ax - (A + ax.sign)) (ay - (B + ay.sign)) bx b_y,
        bind2_map]
    · rw [ih x y A B bx b_y, ih (x + A) (y + B) (ax - A) (ay - B) bx b_y, bind2_map]
    · rw [ih x y (C + bx.sign) (D + b_y.sign) A B,
        ih (x + (C + bx.sign)) (y + (D + b_y.sign)) ax ay (bx - (C + bx.sign)) (b_y - (D + b_y.sign)),
        ih (x + (ax - ax.sign) + (C + bx.sign - bx.sign)) (y + (ay - ay.sign) + (D + b_y.sign - b_y.sign))
          (-(C + bx.sign)) (-(D + b_y.sign)) (-(ax - A)) (-(ay - B)),
        bind3_map]
    · rw [ih x y C D A B, ih (x + C) (y + D) ax ay (bx - C) (b_y - D),
        ih (x + (ax - ax.sign) + (C - bx.sign)) (y + (ay - ay.sign) + (D - b_y.sign))
          (-C) (-D) (-(ax - A)) (-(ay - B)),
        bind3_map]

theorem hf_facts {σ : ℤ} (hσ : σ = 1 ∨ σ = -1) {w : ℕ} (hw : 2 ≤ w) :
    1 ≤ hf σ w ∧ hf σ w < w := by
  unfold hf
  rcases hσ with rfl | rfl
  · rw [if_pos rfl]; omega
  · rw [if_neg (by norm_num : ¬ ((-1 : ℤ) = 1))]; omega

theorem ns_facts {σ : ℤ} (hσ : σ = 1 ∨ σ = -1) {w : ℕ} (hw : 2 ≤ w) :
    1 ≤ ns σ w ∧ ns σ w < w ∧ (ns σ w = 1 ↔ w = 2) ∧ (2 < w → ns σ w % 2 = 0) := by
  unfold ns hf
  rcases hσ with rfl | rfl
  · rw [if_pos rfl] at *
    split_ifs <;> omega
  · rw [if_neg (by norm_num : ¬ ((-1 : ℤ) = 1))] at *
    split_ifs <;> omega

theorem ns_facts2 {σ : ℤ} (hσ : σ = 1 ∨ σ = -1) {w : ℕ} (hw : 4 ≤ w)
    (hEv : σ = -1 → w % 2 = 0) :
    2 ≤ ns σ w ∧ ns σ w % 2 = 0 ∧ ns σ w + 2 ≤ w := by
  unfold ns hf
  rcases hσ with rfl | rfl
  · rw [if_pos rfl] at *
    split_ifs <;> omega
  · have hw2 : w % 2 = 0 := hEv rfl
    rw [if_neg (by norm_num : ¬ ((-1 : ℤ) = 1))] at *
    split_ifs <;> omega

/-- Glue the two halves of a 2-way split.  The first half has even
extent at least 2 and the second extent is at least 2, which pins the
first half's endpoint to the near corner next to the second half's
start. -/
theorem GSpec_append2 {σ : ℤ} (hσ : σ = 1 ∨ σ = -1) {x y : ℤ} {w h s : ℕ}
    (hs2 : 2 ≤ s) (hsE : s % 2 = 0) (hsw : s + 2 ≤ w)
    {l1 l2 : List (ℤ × ℤ)}
    (H1 : GSpec x y σ s h l1) (H2 : GSpec (x + σ * s) y σ (w - s) h l2) :
    GSpec x y σ w h (l1 ++ l2) := by
  have hlen : s * h + (w - s) * h = w * h := by
    rw [← Nat.add_mul]; congr 1; omega
  refine ⟨?_, ?_, ?_, ?_, ?_, ?_⟩
  · rw [List.length_append, H1.len, H2.len, hlen]
  · intro q
    rw [List.mem_append, H1.mem, H2.mem]
    constructor
    · rintro (⟨i, j, hi, hj, rfl⟩ | ⟨i, j, hi, hj, rfl⟩)
      · exact ⟨i, j, by omega, hj, rfl⟩
      · exact ⟨s + i, j, by omega, hj, ptv_shift_a x y σ s i j⟩
    · rintro ⟨i, j, hi, hj, rfl⟩
      by_cases his : i < s
      · exact Or.inl ⟨i, j, his, hj, rfl⟩
      · refine Or.inr ⟨i - s, j, by omega, hj, ?_⟩
        rw [ptv_shift_a]
        exact ((ptv_inj hσ).mpr ⟨by omega, rfl⟩)
  · refine H1.nodup.append H2.nodup ?_
    intro q hq1 hq2
    obtain ⟨i, j, hi, hj, rfl⟩ := (H1.mem q).mp hq1
    obtain ⟨i', j', hi', hj', he⟩ := (H2.mem _).mp hq2
    rw [ptv_shift_a] at he
    have := ((ptv_inj hσ).mp he).1
    omega
  · rw [List.head?_append, H1.head]
    rfl
  · rw [List.getLast?_append]
    rcases H2.last with ⟨h1, hl⟩ | hl | ⟨hodd, h3, hl⟩
    · omega
    · refine Or.inr (Or.inl ?_)
      rw [hl, ptv_shift_a]
      exact congrArg some ((ptv_inj hσ).mpr ⟨by omega, rfl⟩)
    · refine Or.inr (Or.inr ⟨by omega, by omega, ?_⟩)
      rw [hl, ptv_shift_a]
      exact congrArg some ((ptv_inj hσ).mpr ⟨by omega, rfl⟩)
  · refine H1.chain.append H2.chain ?_
    intro p hp q hq
    rcases H1.last with ⟨h1, hl⟩ | hl | ⟨hodd, h3, hl⟩
    · omega
    · rw [hl, Option.mem_some_iff] at hp
      rw [H2.head, Option.mem_some_iff] at hq
      subst hp; subst hq
      have : (x + σ * s, y) = ptv x y σ s 0 := by simp [ptv]
      rw [this, adjC_ptv hσ]
      omega
    · omega

theorem head?_append_of_some {α : Type} {l1 l2 : List α} {v : α}
    (h : l1.head? = some v) : (l1 ++ l2).head? = some v := by
  rw [List.head?_append, h]; rfl

theorem getLast?_append_of_some {α : Type} {l1 l2 : List α} {v : α}
    (h : l2.getLast? = some v) : (l1 ++ l2).getLast? = some v := by
  rw [List.getLast?_append, h]; rfl

/-- Glue the three pieces of a 3-way split: the transposed first corner
block, the shifted middle block, and the doubly-reversed transposed
third block, forming the S-shaped traversal. -/
theorem GSpec_append3 {σ : ℤ} (hσ : σ = 1 ∨ σ = -1) {x y : ℤ} {w h t m : ℕ}
    (hw : 2 ≤ w) (hh : 2 ≤ h) (hm1 : 1 ≤ m) (hmw : m < w) (ht1 : 1 ≤ t) (hth : t < h)
    (htE : t = 1 ∨ t % 2 = 0) (ht1h : t = 1 → h = 2) (hsplit : 2 * w ≤ 3 * h)
    {l1 l2 l3 : List (ℤ × ℤ)}
    (H1 : GSpecT x y σ m t l1)
    (H2 : GSpec x (y + σ * t) σ w (h - t) l2)
    (H3 : GSpecT (x + σ * ((w : ℤ) - 1)) (y + σ * ((t : ℤ) - 1)) (-σ) (w - m) t l3) :
    GSpec x y σ w h (l1 ++ l2 ++ l3) := by
  have e1 : m * t + (w - m) * t = w * t := by rw [← Nat.add_mul]; congr 1; omega
  have e2 : w * (h - t) + w * t = w * h := by rw [← Nat.mul_add]; congr 1; omega
  refine ⟨?_, ?_, ?_, ?_, ?_, ?_⟩
  · rw [List.length_append, List.length_append, H1.len, H2.len, H3.len]
    linarith
  · intro q
    rw [List.mem_append, List.mem_append, H1.mem, H2.mem, H3.mem]
    constructor
    · rintro ((⟨i, j, hi, hj, rfl⟩ | ⟨i, j, hi, hj, rfl⟩) | ⟨a, b, ha, hb, rfl⟩)
      · exact ⟨i, j, by omega, by omega, rfl⟩
      · exact ⟨i, t + j, hi, by omega, ptv_shift_b x y σ t i j⟩
      · exact ⟨w - 1 - a, t - 1 - b, by omega, by omega,
          ptv_flip w t x y σ (a := a) (b := b) (by omega) hb⟩
    · rintro ⟨i, j, hi, hj, rfl⟩
      by_cases hjt : j < t
      · by_cases him : i < m
        · exact Or.inl (Or.inl ⟨i, j, him, hjt, rfl⟩)
        · refine Or.inr ⟨w - 1 - i, t - 1 - j, by omega, by omega, ?_⟩
          rw [ptv_flip w t x y σ (show w - 1 - i < w by omega) (show t - 1 - j < t by omega)]
          exact (ptv_inj hσ).mpr ⟨by omega, by omega⟩
      · refine Or.inl (Or.inr ⟨i, j - t, hi, by omega, ?_⟩)
        rw [ptv_shift_b]
        exact (ptv_inj hσ).mpr ⟨rfl, by omega⟩
  · have d12 : l1.Disjoint l2 := by
      intro q h1 h2
      obtain ⟨i, j, hi, hj, rfl⟩ := (H1.mem q).mp h1
      obtain ⟨i', j', hi', hj', he⟩ := (H2.mem _).mp h2
      rw [ptv_shift_b] at he
      have := (ptv_inj hσ).mp he
      omega
    have d13 : l1.Disjoint l3 := by
      intro q h1 h3
      obtain ⟨i, j, hi, hj, rfl⟩ := (H1.mem q).mp h1
      obtain ⟨a, b, ha, hb, he⟩ := (H3.mem _).mp h3
      rw [ptv_flip w t x y σ (by omega) hb] at he
      have := (ptv_inj hσ).mp he
      omega
    have d23 : l2.Disjoint l3 := by
      intro q h2 h3
      obtain ⟨i, j, hi, hj, rfl⟩ := (H2.mem q).mp h2
      obtain ⟨a, b, ha, hb, he⟩ := (H3.mem _).mp h3
      rw [ptv_shift_b] at he
      rw [ptv_flip w t x y σ (by omega) hb] at he
      have := (ptv_inj hσ).mp he
      omega
    refine (H1.nodup.append H2.nodup d12).append H3.nodup ?_
    intro q hq hq3
    rcases List.mem_append.mp hq with hq' | hq'
    · exact d13 hq' hq3
    · exact d23 hq' hq3
  · exact head?_append_of_some (head?_append_of_some H1.head)
  · rcases H3.last with ⟨h1t, hl⟩ | hl | ⟨hodd, h3t, hl⟩
    · have hh2 : h = 2 := ht1h h1t
      have hw3 : w ≤ 3 := by omega
      rcases (show m = w - 1 ∨ (w % 2 = 1 ∧ 3 ≤ w ∧ m = w - 2) by omega) with hm | ⟨ho, h3w, hm⟩
      · refine Or.inr (Or.inl ?_)
        refine getLast?_append_of_some ?_
        rw [hl, ptv_flip w t x y σ (by omega) (by omega)]
        exact congrArg some ((ptv_inj hσ).mpr ⟨by omega, by omega⟩)
      · refine Or.inr (Or.inr ⟨ho, h3w, ?_⟩)
        refine getLast?_append_of_some ?_
        rw [hl, ptv_flip w t x y σ (by omega) (by omega)]
        exact congrArg some ((ptv_inj hσ).mpr ⟨by omega, by omega⟩)
    · refine Or.inr (Or.inl ?_)
      refine getLast?_append_of_some ?_
      rw [hl, ptv_flip w t x y σ (by omega) (by omega)]
      exact congrArg some ((ptv_inj hσ).mpr ⟨by omega, by omega⟩)
    · omega
  · have ew : ((w - 1 : ℕ) : ℤ) = (w : ℤ) - 1 := by omega
    have et : ((t - 1 : ℕ) : ℤ) = (t : ℤ) - 1 := by omega
    have e3head : ((x + σ * ((w : ℤ) - 1), y + σ * ((t : ℤ) - 1)) : ℤ × ℤ) =
        ptv x y σ (w - 1) (t - 1) := by
      simp only [ptv, ew, et]
    refine (H1.chain.append H2.chain ?_).append H3.chain ?_
    · intro p hp q hq
      rw [H2.head, Option.mem_some_iff] at hq
      subst hq
      have e2head : ((x, y + σ * (t : ℤ)) : ℤ × ℤ) = ptv x y σ 0 t := by
        simp [ptv]
      rw [e2head]
      rcases H1.last with ⟨h1t, hl⟩ | hl | ⟨hodd, h3t, hl⟩
      · have hh2 : h = 2 := ht1h h1t
        rw [hl, Option.mem_some_iff] at hp
        subst hp
        rw [adjC_ptv hσ]
        omega
      · rw [hl, Option.mem_some_iff] at hp
        subst hp
        rw [adjC_ptv hσ]
        omega
      · omega
    · intro p hp q hq
      rw [H3.head, Option.mem_some_iff] at hq
      subst hq
      rw [e3head]
      rcases H2.last with ⟨h1w, hl⟩ | hl | ⟨hodd, h3w, hl⟩
      · omega
      · rw [getLast?_append_of_some hl, Option.mem_some_iff] at hp
        subst hp
        rw [ptv_shift_b, adjC_ptv hσ]
        omega
      · rw [getLast?_append_of_some hl, Option.mem_some_iff] at hp
        subst hp
        rw [ptv_shift_b, adjC_ptv hσ]
        omega

theorem floor_div2_zero : floor_div2 0 = 0 := rfl

theorem nudge_if_sigma {σ : ℤ} (hσ : σ = 1 ∨ σ = -1) (w : ℕ) :
    (if nudge ((hf σ w : ℕ) : ℤ) (w : ℤ) then σ * ((hf σ w : ℕ) : ℤ) + σ
     else σ * ((hf σ w : ℕ) : ℤ)) = σ * ((ns σ w : ℕ) : ℤ) := by
  rw [nudge_natCast]
  unfold ns
  by_cases hc : hf σ w % 2 ≠ 0 ∧ 2 < w
  · rw [if_pos (by simpa using hc), if_pos hc]
    push_cast
    ring
  · rw [if_neg (by simpa using hc), if_neg hc]

theorem ns_one_or_even {σ : ℤ} (hσ : σ = 1 ∨ σ = -1) {h : ℕ} (hh : 2 ≤ h) :
    ns σ h = 1 ∨ ns σ h % 2 = 0 := by
  rcases Nat.lt_or_ge 2 h with h2 | h2
  · exact Or.inr ((ns_facts hσ hh).2.2.2 h2)
  · have he : h = 2 := by omega
    subst he
    exact Or.inl ((ns_facts hσ (by norm_num)).2.2.1.mpr rfl)

theorem area_bound {t m w h f : ℕ} (ht : t < h) (hm : m < w) (hw : 2 ≤ w) (hh : 2 ≤ h)
    (hfuel : w * h ≤ f + 1) : t * m ≤ f := by
  obtain ⟨w', rfl⟩ := Nat.exists_eq_add_of_le hw
  obtain ⟨h', rfl⟩ := Nat.exists_eq_add_of_le hh
  have h1 : t * m ≤ (1 + h') * (1 + w') := Nat.mul_le_mul (by omega) (by omega)
  nlinarith

theorem area_bound2 {t w h f : ℕ} (ht : 1 ≤ t) (hth : t < h) (hw : 2 ≤ w)
    (hfuel : w * h ≤ f + 1) : w * (h - t) ≤ f := by
  have h1 : w * (h - t) + w * t = w * h := by rw [← Nat.mul_add]; congr 1; omega
  have h2 : w * 1 ≤ w * t := Nat.mul_le_mul (le_refl w) ht
  have h3 : w * 1 = w := Nat.mul_one w
  linarith

theorem area_bound3 {s w h f : ℕ} (hs : s + 2 ≤ w) (hh : 2 ≤ h)
    (hfuel : w * h ≤ f + 1) : s * h ≤ f := by
  have h1 : (s + 2) * h ≤ w * h := Nat.mul_le_mul hs (le_refl h)
  have h2 : (s + 2) * h = s * h + 2 * h := by ring
  linarith

/-- Main correctness of the recursive generator, by strong induction on
fuel: for normalised axis-aligned arguments of positive extents (with the
orientation/evenness invariant) and fuel at least the area, `gen`
succeeds and its output satisfies the full rectangle specification. -/
theorem gen_norm (fuel : ℕ) : ∀ (σ : ℤ) (w h : ℕ) (x y : ℤ),
    (σ = 1 ∨ σ = -1) → 1 ≤ w → 1 ≤ h → (σ = -1 → w = 1 ∨ w % 2 = 0) →
    w * h ≤ fuel →
    ∃ l, gen fuel x y (σ * w) 0 0 (σ * h) = some l ∧ GSpec x y σ w h l := by
  induction fuel with
  | zero =>
      intro σ w h x y hσ hw hh hE hfuel
      exfalso
      have := Nat.mul_pos (show 0 < w by omega) (show 0 < h by omega)
      omega
  | succ f ih =>
      intro σ w h x y hσ hw hh hE hfuel
      by_cases hh1 : h = 1
      · subst hh1
        refine ⟨straightRun x y σ 0 w, ?_, GSpec_straight_X hσ x y hw⟩
        have hs0 : (0:ℤ) < (w:ℤ) := by exact_mod_cast (show 0 < w by omega)
        have hsgn2 : ((w:ℤ)).sign = 1 := Int.sign_eq_one_of_pos hs0
        rcases hσ with rfl | rfl <;>
          simp [gen, hsgn2, abs_sigma_mul, Int.sign_zero]
      · by_cases hw1 : w = 1
        · subst hw1
          have hh2 : 2 ≤ h := by omega
          refine ⟨straightRun x y 0 σ h, ?_, GSpec_straight_Y hσ x y hh⟩
          have hs0 : (0:ℤ) < (h:ℤ) := by exact_mod_cast (show 0 < h by omega)
          have hsgn2 : ((h:ℤ)).sign = 1 := Int.sign_eq_one_of_pos hs0
          have hcne : ¬((h:ℤ) = 1) := by omega
          have hne : ¬(|σ * (h:ℤ)| = 1) := by
            rw [abs_sigma_mul hσ]
            omega
          rcases hσ with rfl | rfl <;>
            simp [gen, hsgn2, hne, hh1, hcne, abs_sigma_mul, Int.sign_zero]
        · -- recursive case
          have hw2 : 2 ≤ w := by omega
          have hh2 : 2 ≤ h := by omega
          have hEw : σ = -1 → w % 2 = 0 := fun hs1 => by
            rcases hE hs1 with h1 | h1
            · omega
            · exact h1
          have hc1 : ¬((h : ℤ) = 1) := by omega
          have hc2 : ¬((w : ℤ) = 1) := by omega
          by_cases hsplit : 3 * h < 2 * w
          · -- 2-way split
            have hw4 : 4 ≤ w := by omega
            obtain ⟨hs2, hsE, hsw⟩ := ns_facts2 hσ hw4 hEw
            obtain ⟨l1, hg1, H1⟩ := ih σ (ns σ w) h x y hσ (by omega) (by omega)
              (fun _ => Or.inr hsE) (area_bound3 hsw hh2 hfuel)
            obtain ⟨l2, hg2, H2⟩ := ih σ (w - ns σ w) h (x + σ * ((ns σ w : ℕ) : ℤ)) y hσ
              (by omega) (by omega)
              (fun hs1 => Or.inr (by have := hEw hs1; omega))
              (area_bound3 (by omega) hh2 hfuel)
            refine ⟨l1 ++ l2, ?_, GSpec_append2 hσ hs2 hsE hsw H1 H2⟩
            have hc3 : (3 * (h : ℤ) < 2 * (w : ℤ)) := by omega
            have e1 : σ * (w : ℤ) - σ * ((ns σ w : ℕ) : ℤ) = σ * ((w - ns σ w : ℕ) : ℤ) := by
              have hcast : ((w - ns σ w : ℕ) : ℤ) = (w : ℤ) - (ns σ w : ℕ) := by omega
              rw [hcast]; ring
            simp only [gen, add_zero, zero_add, floor_div2_zero, Int.sign_zero,
              floor_div2_sigma hσ, abs_sigma_mul hσ, sign_sigma_mul hσ hw,
              sign_sigma_mul hσ hh, ite_self]
            rw [if_neg hc1, if_neg hc2, if_pos hc3]
            simp only [nudge_if_sigma hσ, e1, sub_zero]
            rw [hg1, Option.some_bind, hg2, Option.some_bind]
          · -- 3-way split
            obtain ⟨ht1, hth, ht1iff, _⟩ := ns_facts hσ hh2
            have htE := ns_one_or_even hσ hh2
            obtain ⟨hm1, hmw⟩ := hf_facts hσ hw2
            have hσ' : (-σ : ℤ) = 1 ∨ (-σ : ℤ) = -1 := by
              rcases hσ with rfl | rfl
              · exact Or.inr (by norm_num)
              · exact Or.inl (by norm_num)
            obtain ⟨L1, hg1, H1⟩ := ih σ (ns σ h) (hf σ w) y x hσ (by omega) (by omega)
              (fun _ => htE) (area_bound hth hmw hw2 hh2 hfuel)
            obtain ⟨l2, hg2, H2⟩ := ih σ w (h - ns σ h) x (y + σ * ((ns σ h : ℕ) : ℤ)) hσ
              (by omega) (by omega) hE (area_bound2 ht1 hth hw2 hfuel)
            obtain ⟨L3, hg3, H3⟩ := ih (-σ) (ns σ h) (w - hf σ w)
              (y + σ * (((ns σ h : ℕ) : ℤ) - 1)) (x + σ * (((w : ℕ) : ℤ) - 1)) hσ'
              (by omega) (by omega) (fun _ => htE)
              (area_bound hth (by omega) hw2 hh2 hfuel)
            refine ⟨List.map Prod.swap L1 ++ l2 ++ List.map Prod.swap L3, ?_,
              GSpec_append3 hσ hw2 hh2 hm1 hmw ht1 hth htE (fun h1 => ht1iff.mp h1)
                (by omega) (GSpec.transpose hσ H1) H2 (GSpec.transpose hσ' H3)⟩
            have hc3 : ¬(3 * (h : ℤ) < 2 * (w : ℤ)) := by omega
            have e2 : σ * (h : ℤ) - σ * ((ns σ h : ℕ) : ℤ) = σ * ((h - ns σ h : ℕ) : ℤ) := by
              have hcast : ((h - ns σ h : ℕ) : ℤ) = (h : ℤ) - (ns σ h : ℕ) := by omega
              rw [hcast]; ring
            have e3x : σ * (w : ℤ) - σ = σ * ((w : ℤ) - 1) := by ring
            have e3y : σ * ((ns σ h : ℕ) : ℤ) - σ = σ * (((ns σ h : ℕ) : ℤ) - 1) := by ring
            have e3a : -(σ * ((ns σ h : ℕ) : ℤ)) = (-σ) * ((ns σ h : ℕ) : ℤ) := by ring
            have e3b : -(σ * (w : ℤ) - σ * ((hf σ w : ℕ) : ℤ)) =
                (-σ) * ((w - hf σ w : ℕ) : ℤ) := by
              have hcast : ((w - hf σ w : ℕ) : ℤ) = (w : ℤ) - (hf σ w : ℕ) := by omega
              rw [hcast]; ring
            simp only [gen, add_zero, zero_add, floor_div2_zero, Int.sign_zero,
              floor_div2_sigma hσ, abs_sigma_mul hσ, sign_sigma_mul hσ hw,
              sign_sigma_mul hσ hh, ite_self]
            rw [if_neg hc1, if_neg hc2, if_neg hc3]
            simp only [nudge_if_sigma hσ, e2, e3x, e3y, e3a, e3b, neg_zero, sub_zero,
              zero_sub, neg_neg, add_zero, zero_add]
            rw [gen_swap f y x (σ * ((ns σ h : ℕ) : ℤ)) 0 0 (σ * ((hf σ w : ℕ) : ℤ)), hg1]
            rw [gen_swap f (y + σ * (((ns σ h : ℕ) : ℤ) - 1)) (x + σ * (((w : ℕ) : ℤ) - 1))
              ((-σ) * ((ns σ h : ℕ) : ℤ)) 0 0 ((-σ) * ((w - hf σ w : ℕ) : ℤ)), hg3]
            rw [hg2]
            simp only [Option.map_some', Option.some_bind]

theorem chain'_and {α : Type} {R S : α → α → Prop} : ∀ {l : List α},
    l.Chain' R → l.Chain' S → l.Chain' fun a b => R a b ∧ S a b := by
  intro l
  induction l with
  | nil => intro _ _; simp
  | cons a l ihl =>
      intro hR hS
      cases l with
      | nil => simp
      | cons b t =>
          rw [List.chain'_cons] at hR hS ⊢
          exact ⟨⟨hR.1, hS.1⟩, ihl hR.2 hS.2⟩

/-- Bundled top-level result: for positive dimensions `gilbert2d`
succeeds and its output has full single-visit coverage of the grid,
Chebyshev-adjacent consecutive points, and starts at the origin. -/
theorem gilbert2d_spec (width height : ℤ) (hw : 1 ≤ width) (hh : 1 ≤ height) :
    ∃ l, gilbert2d width height = some l ∧
      l.length = (width * height).toNat ∧ l.Nodup ∧
      (∀ p : ℤ × ℤ, p ∈ l ↔ 0 ≤ p.1 ∧ p.1 < width ∧ 0 ≤ p.2 ∧ p.2 < height) ∧
      l.Chain' adjC ∧ l.head? = some (0, 0) := by
  have hwn : ((width.toNat : ℕ) : ℤ) = width := Int.toNat_of_nonneg (by omega)
  have hhn : ((height.toNat : ℕ) : ℤ) = height := Int.toNat_of_nonneg (by omega)
  have hlen : width.toNat * height.toNat = (width * height).toNat := by
    have h1 : ((width.toNat * height.toNat : ℕ) : ℤ) = width * height := by
      push_cast
      rw [hwn, hhn]
    rw [← h1, Int.toNat_natCast]
  unfold gilbert2d
  by_cases hcmp : height ≤ width
  · rw [if_pos hcmp]
    obtain ⟨l, hg, H⟩ := gen_norm (width.toNat * height.toNat) 1 width.toNat height.toNat 0 0
      (Or.inl rfl) (by omega) (by omega) (by norm_num) (le_refl _)
    rw [one_mul, one_mul, hwn, hhn] at hg
    refine ⟨l, hg, ?_, H.nodup, ?_, ?_, ?_⟩
    · rw [H.len, hlen]
    · intro p
      rw [H.mem]
      constructor
      · rintro ⟨i, j, hi, hj, rfl⟩
        simp only [ptv]
        constructor
        · omega
        · refine ⟨by omega, by omega, by omega⟩
      · rintro ⟨h1, h2, h3, h4⟩
        refine ⟨p.1.toNat, p.2.toNat, by omega, by omega, ?_⟩
        rcases p with ⟨p1, p2⟩
        simp only [ptv, Prod.mk.injEq]
        omega
    · exact H.chain
    · rw [H.head]
  · rw [if_neg hcmp]
    rw [gen_swap (width.toNat * height.toNat) 0 0 height 0 0 width]
    obtain ⟨L, hg, H⟩ := gen_norm (width.toNat * height.toNat) 1 height.toNat width.toNat 0 0
      (Or.inl rfl) (by omega) (by omega) (by norm_num) (by rw [Nat.mul_comm])
    rw [one_mul, one_mul, hwn, hhn] at hg
    rw [hg, Option.map_some']
    refine ⟨L.map Prod.swap, rfl, ?_, H.nodup.map Prod.swap_injective, ?_, ?_, ?_⟩
    · rw [List.length_map, H.len, ← hlen, Nat.mul_comm]
    · intro p
      constructor
      · intro hp
        obtain ⟨q, hq, rfl⟩ := List.mem_map.mp hp
        obtain ⟨i, j, hi, hj, rfl⟩ := (H.mem q).mp hq
        simp only [ptv, Prod.swap]
        refine ⟨by omega, by omega, by omega, by omega⟩
      · rintro ⟨h1, h2, h3, h4⟩
        refine List.mem_map.mpr ⟨Prod.swap p, (H.mem _).mpr ⟨p.2.toNat, p.1.toNat, by omega, by omega, ?_⟩, Prod.swap_swap p⟩
        rcases p with ⟨p1, p2⟩
        simp only [ptv, Prod.swap, Prod.mk.injEq]
        omega
    · rw [List.chain'_map]
      exact H.chain.imp fun a b hab => adjC_swap hab
    · rw [List.head?_map, H.head]
      rfl

/-- C1: for every width ≥ 1 and height ≥ 1, the coordinate sequence
produced by `gilbert2d` has exactly `width*height` entries and, as a set,
equals exactly the rectangle `[0,width) × [0,height)` with no coordinate
appearing twice (including the degenerate single-line cases). -/
theorem claim_C1_gilbert2d_coverage (width height : ℤ) (hw : 1 ≤ width) (hh : 1 ≤ height) :
    ∃ l, gilbert2d width height = some l ∧
      l.length = (width * height).toNat ∧ l.Nodup ∧
      (∀ p : ℤ × ℤ, p ∈ l ↔ 0 ≤ p.1 ∧ p.1 < width ∧ 0 ≤ p.2 ∧ p.2 < height) := by
  obtain ⟨l, h1, h2, h3, h4, _, _⟩ := gilbert2d_spec width height hw hh
  exact ⟨l, h1, h2, h3, h4⟩

/-- Witness for C1 at the concrete sizes 3×2 and the degenerate 5×1. -/
theorem claim_C1_witness :
    ((1 : ℤ) ≤ 3 ∧ (1 : ℤ) ≤ 2 ∧
      ∃ l, gilbert2d 3 2 = some l ∧
        l.length = ((3 : ℤ) * 2).toNat ∧ l.Nodup ∧
        (∀ p : ℤ × ℤ, p ∈ l ↔ 0 ≤ p.1 ∧ p.1 < 3 ∧ 0 ≤ p.2 ∧ p.2 < 2)) ∧
    ((1 : ℤ) ≤ 5 ∧ (1 : ℤ) ≤ 1 ∧
      ∃ l, gilbert2d 5 1 = some l ∧
        l.length = ((5 : ℤ) * 1).toNat ∧ l.Nodup ∧
        (∀ p : ℤ × ℤ, p ∈ l ↔ 0 ≤ p.1 ∧ p.1 < 5 ∧ 0 ≤ p.2 ∧ p.2 < 1)) :=
  ⟨⟨by norm_num, by norm_num, claim_C1_gilbert2d_coverage 3 2 (by norm_num) (by norm_num)⟩,
   ⟨by norm_num, by norm_num, claim_C1_gilbert2d_coverage 5 1 (by norm_num) (by norm_num)⟩⟩

/-- C3: for every width ≥ 1 and height ≥ 1, every pair of consecutive
coordinates emitted by `gilbert2d` is grid-adjacent with Chebyshev
distance exactly 1. -/
theorem claim_C3_gilbert2d_adjacent (width height : ℤ) (hw : 1 ≤ width) (hh : 1 ≤ height) :
    ∃ l, gilbert2d width height = some l ∧
      l.Chain' fun p q => max |p.1 - q.1| |p.2 - q.2| = 1 := by
  obtain ⟨l, h1, _, h3, _, h5, _⟩ := gilbert2d_spec width height hw hh
  refine ⟨l, h1, ?_⟩
  have hne : l.Chain' (· ≠ ·) := List.Pairwise.chain' h3
  refine (chain'_and h5 hne).imp fun p q hpq => ?_
  obtain ⟨⟨ha, hb⟩, hne'⟩ := hpq
  have hor : p.1 ≠ q.1 ∨ p.2 ≠ q.2 := by
    by_contra hcon
    push_neg at hcon
    exact hne' (Prod.ext hcon.1 hcon.2)
  have key : ∀ u v : ℤ, |u| ≤ 1 → |v| ≤ 1 → (u ≠ 0 ∨ v ≠ 0) → max |u| |v| = 1 := by
    intro u v h1 h2 h3
    rcases le_total |u| |v| with hle | hle
    · rw [max_eq_right hle]
      rcases abs_cases u with ⟨e1, s1⟩ | ⟨e1, s1⟩ <;>
        rcases abs_cases v with ⟨e2, s2⟩ | ⟨e2, s2⟩ <;>
        (rw [e1] at h1 hle; rw [e2] at h2 hle ⊢; omega)
    · rw [max_eq_left hle]
      rcases abs_cases u with ⟨e1, s1⟩ | ⟨e1, s1⟩ <;>
        rcases abs_cases v with ⟨e2, s2⟩ | ⟨e2, s2⟩ <;>
        (rw [e1] at h1 hle ⊢; rw [e2] at h2 hle; omega)
  exact key _ _ ha hb (by omega)

/-- Witness for C3 at the concrete size 4×3. -/
theorem claim_C3_witness :
    (1 : ℤ) ≤ 4 ∧ (1 : ℤ) ≤ 3 ∧
    ∃ l, gilbert2d 4 3 = some l ∧
      l.Chain' fun p q => max |p.1 - q.1| |p.2 - q.2| = 1 :=
  ⟨by norm_num, by norm_num, claim_C3_gilbert2d_adjacent 4 3 (by norm_num) (by norm_num)⟩

/-- C5 counterexample: the code's nudge condition fires for halved extent
1 and full extent 3 (as in the splits of `gilbert2d 3 3`), although the
claimed condition "the sub-extent is odd and greater than 2" is false
there: the sub-extent 1 is not greater than 2. -/
theorem claim_C5_counterexample :
    nudge 1 3 = true ∧ ¬((1 : ℤ) % 2 ≠ 0 ∧ 2 < (1 : ℤ)) ∧ hf 1 3 = 1 := by
  refine ⟨by decide, by decide, by decide⟩

/-- C5 (amended): a halved step vector is nudged by one unit in its own
direction exactly when the halved extent is odd and the full (parent)
extent is greater than 2. -/
theorem claim_C5_amended_nudge : ∀ half full : ℤ,
    nudge half full = true ↔ (half % 2 ≠ 0 ∧ 2 < full) := by
  intro half full
  simp [nudge]

theorem flattenCurve_getD_even : ∀ (l : List (ℤ × ℤ)) (i : ℕ),
    (flattenCurve l).getD (2 * i) 0 = (l.getD i (0, 0)).1 := by
  intro l
  induction l with
  | nil => intro i; simp [flattenCurve]
  | cons p r ihr =>
      intro i
      cases i with
      | zero => simp [flattenCurve]
      | succ i' =>
          have h2 : 2 * (i' + 1) = 2 * i' + 1 + 1 := by ring
          rw [h2]
          simp only [flattenCurve, List.getD_cons_succ, List.getD_cons_zero]
          exact ihr i'

theorem flattenCurve_getD_odd : ∀ (l : List (ℤ × ℤ)) (i : ℕ),
    (flattenCurve l).getD (2 * i + 1) 0 = (l.getD i (0, 0)).2 := by
  intro l
  induction l with
  | nil => intro i; simp [flattenCurve]
  | cons p r ihr =>
      intro i
      cases i with
      | zero => simp [flattenCurve]
      | succ i' =>
          have h2 : 2 * (i' + 1) + 1 = 2 * i' + 1 + 1 + 1 := by ring
          rw [h2]
          simp only [flattenCurve, List.getD_cons_succ, List.getD_cons_zero]
          exact ihr i'

theorem precompute_indices_eq_map (width : ℤ) (l : List (ℤ × ℤ)) (n : ℤ)
    (hn : n.toNat = l.length) :
    precompute_indices width n (fun k => (flattenCurve l).getD k 0) =
      l.map fun p => p.1 + p.2 * width := by
  unfold precompute_indices
  rw [hn]
  apply List.ext_getElem
  · simp
  · intro i h1 h2
    simp only [List.getElem_map, List.getElem_range]
    rw [flattenCurve_getD_even, flattenCurve_getD_odd,
      List.getD_eq_getElem l (0, 0) (by simpa using h2)]

theorem index_inj {width : ℤ} {a1 a2 b1 b2 : ℤ}
    (ha1 : 0 ≤ a1) (ha1' : a1 < width) (hb1 : 0 ≤ b1) (hb1' : b1 < width)
    (he : a1 + a2 * width = b1 + b2 * width) : a1 = b1 ∧ a2 = b2 := by
  have hd : (a2 - b2) * width = b1 - a1 := by ring_nf; linarith
  rcases lt_trichotomy a2 b2 with hlt | heq | hgt
  · exfalso
    have h1 : 1 * width ≤ (b2 - a2) * width :=
      mul_le_mul_of_nonneg_right (by omega) (by omega)
    have h2 : (b2 - a2) * width = a1 - b1 := by ring_nf; linarith
    linarith
  · subst heq
    constructor
    · linarith
    · rfl
  · exfalso
    have h1 : 1 * width ≤ (a2 - b2) * width :=
      mul_le_mul_of_nonneg_right (by omega) (by omega)
    linarith

/-- C4: `precompute_indices` writes `idx[i] = curve[2i] + curve[2i+1]*width`
for every `i` below `totalPixels`, and applied to the flat curve buffer of
`gilbert2d` (with `totalPixels = width*height`) its output is a
permutation of `[0, width*height)`. -/
theorem claim_C4_precompute_indices :
    (∀ (width totalPixels : ℤ) (curvePtr : ℕ → ℤ) (i : ℕ), i < totalPixels.toNat →
      (precompute_indices width totalPixels curvePtr).getD i 0 =
        curvePtr (2 * i) + curvePtr (2 * i + 1) * width) ∧
    (∀ width height : ℤ, 1 ≤ width → 1 ≤ height →
      ∃ l, gilbert2d width height = some l ∧
        (precompute_indices width (width * height) fun k => (flattenCurve l).getD k 0).Nodup ∧
        ∀ v : ℤ,
          v ∈ (precompute_indices width (width * height) fun k => (flattenCurve l).getD k 0) ↔
            0 ≤ v ∧ v < width * height) := by
  constructor
  · intro width totalPixels curvePtr i hi
    unfold precompute_indices
    rw [List.getD_eq_getElem _ _ (by simpa using hi)]
    simp
  · intro width height hw hh
    obtain ⟨l, h1, h2, h3, h4, _, _⟩ := gilbert2d_spec width height hw hh
    have hmap := precompute_indices_eq_map width l (width * height) h2.symm
    refine ⟨l, h1, ?_, ?_⟩
    · rw [hmap]
      refine List.Nodup.map_on ?_ h3
      intro p hp q hq he
      obtain ⟨hp1, hp2, hp3, hp4⟩ := (h4 p).mp hp
      obtain ⟨hq1, hq2, hq3, hq4⟩ := (h4 q).mp hq
      obtain ⟨e1, e2⟩ := index_inj hp1 hp2 hq1 hq2 he
      exact Prod.ext e1 e2
    · intro v
      rw [hmap]
      constructor
      · intro hv
        obtain ⟨p, hp, rfl⟩ := List.mem_map.mp hv
        obtain ⟨hp1, hp2, hp3, hp4⟩ := (h4 p).mp hp
        constructor
        · have : 0 ≤ p.2 * width := mul_nonneg hp3 (by omega)
          linarith
        · nlinarith
      · rintro ⟨hv0, hv1⟩
        refine List.mem_map.mpr ⟨(v % width, v / width), ?_, ?_⟩
        · refine (h4 _).mpr ⟨?_, ?_, ?_, ?_⟩
          · exact Int.emod_nonneg v (by omega)
          · exact Int.emod_lt_of_pos v (by omega)
          · exact Int.ediv_nonneg hv0 (by omega)
          · rw [Int.ediv_lt_iff_lt_mul (by omega)]
            linarith
        · have := Int.emod_add_ediv v width
          dsimp only
          linarith

/-- Witness for C4: the write equation at a concrete buffer and index,
and the permutation property at size 2×2. -/
theorem claim_C4_witness :
    (1 < (2 : ℤ).toNat ∧
      (precompute_indices 4 2 fun k => (k : ℤ)).getD 1 0 =
        ((2 * 1 : ℕ) : ℤ) + ((2 * 1 + 1 : ℕ) : ℤ) * 4) ∧
    ((1 : ℤ) ≤ 2 ∧ (1 : ℤ) ≤ 2 ∧
      ∃ l, gilbert2d 2 2 = some l ∧
        (precompute_indices 2 ((2 : ℤ) * 2) fun k => (flattenCurve l).getD k 0).Nodup ∧
        ∀ v : ℤ,
          v ∈ (precompute_indices 2 ((2 : ℤ) * 2) fun k => (flattenCurve l).getD k 0) ↔
            0 ≤ v ∧ v < (2 : ℤ) * 2) :=
  ⟨⟨by decide, claim_C4_precompute_indices.1 4 2 (fun k => (k : ℤ)) 1 (by decide)⟩,
   ⟨by norm_num, by norm_num, claim_C4_precompute_indices.2 2 2 (by norm_num) (by norm_num)⟩⟩

theorem genChildren_swap (a : GArgs) :
    genChildren (swapArgs a) = (genChildren a).map swapArgs := by
  rcases a with ⟨x, y, ax, ay, bx, b_y⟩
  simp only [genChildren, swapArgs]
  simp only [show ay + ax = ax + ay from add_comm _ _,
    show b_y + bx = bx + b_y from add_comm _ _,
    show floor_div2 ay + floor_div2 ax = floor_div2 ax + floor_div2 ay from add_comm _ _,
    show floor_div2 b_y + floor_div2 bx = floor_div2 bx + floor_div2 b_y from add_comm _ _]
  split_ifs <;> simp [swapArgs]

theorem genChildren_norm {σ : ℤ} (hσ : σ = 1 ∨ σ = -1) (w h : ℕ) (hw : 1 ≤ w)
    (hh : 1 ≤ h) (x y : ℤ) :
    genChildren ⟨x, y, σ * w, 0, 0, σ * h⟩ =
      if h = 1 then [] else if w = 1 then [] else
      if 3 * h < 2 * w then
        [⟨x, y, σ * ((ns σ w : ℕ) : ℤ), 0, 0, σ * h⟩,
         ⟨x + σ * ((ns σ w : ℕ) : ℤ), y, σ * ((w - ns σ w : ℕ) : ℤ), 0, 0, σ * h⟩]
      else
        [⟨x, y, 0, σ * ((ns σ h : ℕ) : ℤ), σ * ((hf σ w : ℕ) : ℤ), 0⟩,
         ⟨x, y + σ * ((ns σ h : ℕ) : ℤ), σ * w, 0, 0, σ * ((h - ns σ h : ℕ) : ℤ)⟩,
         ⟨x + σ * ((w : ℤ) - 1), y + σ * (((ns σ h : ℕ) : ℤ) - 1), 0, (-σ) * ((ns σ h : ℕ) : ℤ),
          (-σ) * ((w - hf σ w : ℕ) : ℤ), 0⟩] := by
  by_cases hh1 : h = 1
  · subst hh1
    rw [if_pos rfl]
    rcases hσ with rfl | rfl <;> simp [genChildren]
  · by_cases hw1 : w = 1
    · subst hw1
      rw [if_neg hh1, if_pos rfl]
      have hne : ¬(|σ * (h : ℤ)| = 1) := by
        rw [abs_sigma_mul hσ]
        omega
      rcases hσ with rfl | rfl <;> simp [genChildren, hne]
    · have hw2 : 2 ≤ w := by omega
      have hh2 : 2 ≤ h := by omega
      have hc1 : ¬((h : ℤ) = 1) := by omega
      have hc2 : ¬((w : ℤ) = 1) := by omega
      rw [if_neg hh1, if_neg hw1]
      by_cases hsplit : 3 * h < 2 * w
      · rw [if_pos hsplit]
        have hc3 : (3 * (h : ℤ) < 2 * (w : ℤ)) := by omega
        have hns := ns_facts hσ hw2
        have e1 : σ * (w : ℤ) - σ * ((ns σ w : ℕ) : ℤ) = σ * ((w - ns σ w : ℕ) : ℤ) := by
          have hcast : ((w - ns σ w : ℕ) : ℤ) = (w : ℤ) - (ns σ w : ℕ) := by omega
          rw [hcast]; ring
        simp only [genChildren, add_zero, zero_add, floor_div2_zero, Int.sign_zero,
          floor_div2_sigma hσ, abs_sigma_mul hσ, sign_sigma_mul hσ hw,
          sign_sigma_mul hσ hh, ite_self]
        rw [if_neg hc1, if_neg hc2, if_pos hc3]
        simp only [nudge_if_sigma hσ, e1, sub_zero]
      · rw [if_neg hsplit]
        have hc3 : ¬(3 * (h : ℤ) < 2 * (w : ℤ)) := by omega
        have hns := ns_facts hσ hh2
        have hm := hf_facts hσ hw2
        have e2 : σ * (h : ℤ) - σ * ((ns σ h : ℕ) : ℤ) = σ * ((h - ns σ h : ℕ) : ℤ) := by
          have hcast : ((h - ns σ h : ℕ) : ℤ) = (h : ℤ) - (ns σ h : ℕ) := by omega
          rw [hcast]; ring
        have e3x : σ * (w : ℤ) - σ = σ * ((w : ℤ) - 1) := by ring
        have e3y : σ * ((ns σ h : ℕ) : ℤ) - σ = σ * (((ns σ h : ℕ) : ℤ) - 1) := by ring
        have e3a : -(σ * ((ns σ h : ℕ) : ℤ)) = (-σ) * ((ns σ h : ℕ) : ℤ) := by ring
        have e3b : -(σ * (w : ℤ) - σ * ((hf σ w : ℕ) : ℤ)) =
            (-σ) * ((w - hf σ w : ℕ) : ℤ) := by
          have hcast : ((w - hf σ w : ℕ) : ℤ) = (w : ℤ) - (hf σ w : ℕ) := by omega
          rw [hcast]; ring
        simp only [genChildren, add_zero, zero_add, floor_div2_zero, Int.sign_zero,
          floor_div2_sigma hσ, abs_sigma_mul hσ, sign_sigma_mul hσ hw,
          sign_sigma_mul hσ hh, ite_self]
        rw [if_neg hc1, if_neg hc2, if_neg hc3]
        simp only [nudge_if_sigma hσ, e2, e3x, e3y, e3a, e3b, neg_zero, sub_zero,
          zero_sub, neg_neg, add_zero, zero_add]

theorem genArea_norm {σ : ℤ} (hσ : σ = 1 ∨ σ = -1) (w h : ℕ) (x y : ℤ) :
    genArea ⟨x, y, σ * w, 0, 0, σ * h⟩ = w * h := by
  unfold genArea
  simp only [add_zero, zero_add, abs_sigma_mul hσ, ← Nat.cast_mul, Int.toNat_natCast]

theorem genArea_normY {σ : ℤ} (hσ : σ = 1 ∨ σ = -1) (w h : ℕ) (x y : ℤ) :
    genArea ⟨x, y, 0, σ * w, σ * h, 0⟩ = w * h := by
  unfold genArea
  simp only [add_zero, zero_add, abs_sigma_mul hσ, ← Nat.cast_mul, Int.toNat_natCast]

theorem neg_sigma {σ : ℤ} (hσ : σ = 1 ∨ σ = -1) : (-σ : ℤ) = 1 ∨ (-σ : ℤ) = -1 := by
  rcases hσ with rfl | rfl
  · exact Or.inr (by norm_num)
  · exact Or.inl (by norm_num)

theorem normArgs_children_X {σ : ℤ} {w h : ℕ} {x y : ℤ}
    (hσ : σ = 1 ∨ σ = -1) (hw : 1 ≤ w) (hh : 1 ≤ h)
    (hE : σ = -1 → w = 1 ∨ w % 2 = 0) :
    ∀ b ∈ genChildren ⟨x, y, σ * w, 0, 0, σ * h⟩,
      NormArgs b ∧ genArea b < genArea ⟨x, y, σ * w, 0, 0, σ * h⟩ := by
  intro b hb
  rw [genChildren_norm hσ w h hw hh x y] at hb
  rw [genArea_norm hσ w h x y]
  split_ifs at hb with h1 h2 h3
  · simp at hb
  · simp at hb
  · have hh2 : 2 ≤ h := by omega
    have hw2 : 2 ≤ w := by omega
    have hw4 : 4 ≤ w := by omega
    have hEw : σ = -1 → w % 2 = 0 := fun hs => by
      rcases hE hs with e | e
      · omega
      · exact e
    obtain ⟨hs2, hsE, hsw⟩ := ns_facts2 hσ hw4 hEw
    simp only [List.mem_cons, List.not_mem_nil, or_false] at hb
    rcases hb with rfl | rfl
    · refine ⟨⟨σ, ns σ w, h, hσ, by omega, hh, fun _ => Or.inr hsE,
        Or.inl ⟨rfl, rfl, rfl, rfl⟩⟩, ?_⟩
      rw [genArea_norm hσ]
      have := Nat.mul_le_mul (show ns σ w + 2 ≤ w from hsw) (le_refl h)
      nlinarith
    · refine ⟨⟨σ, w - ns σ w, h, hσ, by omega, hh,
        fun hs => Or.inr (by have := hEw hs; omega), Or.inl ⟨rfl, rfl, rfl, rfl⟩⟩, ?_⟩
      rw [genArea_norm hσ]
      have := Nat.mul_le_mul (show (w - ns σ w) + 2 ≤ w by omega) (le_refl h)
      nlinarith
  · have hh2 : 2 ≤ h := by omega
    have hw2 : 2 ≤ w := by omega
    obtain ⟨ht1, hth, ht1iff, _⟩ := ns_facts hσ hh2
    have htE' := ns_one_or_even hσ hh2
    obtain ⟨hm1, hmw⟩ := hf_facts hσ hw2
    simp only [List.mem_cons, List.not_mem_nil, or_false] at hb
    rcases hb with rfl | rfl | rfl
    · refine ⟨⟨σ, ns σ h, hf σ w, hσ, by omega, by omega, fun _ => htE',
        Or.inr ⟨rfl, rfl, rfl, rfl⟩⟩, ?_⟩
      rw [genArea_normY hσ]
      nlinarith
    · refine ⟨⟨σ, w, h - ns σ h, hσ, by omega, by omega, hE,
        Or.inl ⟨rfl, rfl, rfl, rfl⟩⟩, ?_⟩
      rw [genArea_norm hσ]
      have h1' : w * (h - ns σ h) + w * ns σ h = w * h := by
        rw [← Nat.mul_add]; congr 1; omega
      have h2' : w * 1 ≤ w * ns σ h := Nat.mul_le_mul (le_refl w) ht1
      have h3' : w * 1 = w := Nat.mul_one w
      linarith
    · refine ⟨⟨-σ, ns σ h, w - hf σ w, neg_sigma hσ, by omega, by omega, fun _ => htE',
        Or.inr ⟨rfl, rfl, rfl, rfl⟩⟩, ?_⟩
      rw [genArea_normY (neg_sigma hσ)]
      have hb1 : ns σ h * (w - hf σ w) ≤ (h - 1) * (w - 1) :=
        Nat.mul_le_mul (by omega) (by omega)
      have hb2 : (h - 1) * (w - 1) < w * h := by
        obtain ⟨w', rfl⟩ := Nat.exists_eq_add_of_le hw2
        obtain ⟨h', rfl⟩ := Nat.exists_eq_add_of_le hh2
        have e1 : (2 + h') - 1 = 1 + h' := by omega
        have e2 : (2 + w') - 1 = 1 + w' := by omega
        rw [e1, e2]
        nlinarith
      linarith

theorem normArgs_swapArgs {b : GArgs} (h : NormArgs b) : NormArgs (swapArgs b) := by
  obtain ⟨σ, w, hgt, hσ, hw, hh, hE, hor⟩ := h
  rcases hor with ⟨e1, e2, e3, e4⟩ | ⟨e1, e2, e3, e4⟩
  · exact ⟨σ, w, hgt, hσ, hw, hh, hE, Or.inr ⟨by simp [swapArgs, e2], by simp [swapArgs, e1],
      by simp [swapArgs, e4], by simp [swapArgs, e3]⟩⟩
  · exact ⟨σ, w, hgt, hσ, hw, hh, hE, Or.inl ⟨by simp [swapArgs, e2], by simp [swapArgs, e1],
      by simp [swapArgs, e4], by simp [swapArgs, e3]⟩⟩

theorem genArea_swapArgs (b : GArgs) : genArea (swapArgs b) = genArea b := by
  unfold genArea swapArgs
  rw [add_comm b.gay b.gax, add_comm b.gby b.gbx]

theorem normArgs_children {a : GArgs} (hN : NormArgs a) :
    ∀ b ∈ genChildren a, NormArgs b ∧ genArea b < genArea a := by
  obtain ⟨σ, w, h, hσ, hw, hh, hE, hor⟩ := hN
  rcases a with ⟨ax0, ay0, a1, a2, a3, a4⟩
  rcases hor with ⟨e1, e2, e3, e4⟩ | ⟨e1, e2, e3, e4⟩
  · simp only at e1 e2 e3 e4
    subst e1; subst e2; subst e3; subst e4
    exact normArgs_children_X hσ hw hh hE
  · simp only at e1 e2 e3 e4
    subst e1; subst e2; subst e3; subst e4
    intro b hb
    have hswap : (⟨ax0, ay0, 0, σ * w, σ * h, 0⟩ : GArgs) =
        swapArgs ⟨ay0, ax0, σ * w, 0, 0, σ * h⟩ := by
      simp [swapArgs]
    rw [hswap, genChildren_swap] at hb
    obtain ⟨b', hb', rfl⟩ := List.mem_map.mp hb
    obtain ⟨hN', harea⟩ := normArgs_children_X hσ hw hh hE b' hb'
    refine ⟨normArgs_swapArgs hN', ?_⟩
    rw [genArea_swapArgs, hswap, genArea_swapArgs]
    exact harea

/-- C8: in every recursive invocation reachable from the `gilbert2d` root
call with positive dimensions, both step vectors describe strictly
positive extents — the halving and parity-nudge rules never produce a
zero-or-negative sub-extent. -/
theorem claim_C8_positive_extents (width height : ℤ) (hw : 1 ≤ width) (hh : 1 ≤ height) :
    ∀ s, Reachable (gilbertRoot width height) s →
      1 ≤ |s.gax + s.gay| ∧ 1 ≤ |s.gbx + s.gby| := by
  have hwn : ((width.toNat : ℕ) : ℤ) = width := Int.toNat_of_nonneg (by omega)
  have hhn : ((height.toNat : ℕ) : ℤ) = height := Int.toNat_of_nonneg (by omega)
  have hroot : NormArgs (gilbertRoot width height) := by
    unfold gilbertRoot
    by_cases hcmp : height ≤ width
    · rw [if_pos hcmp]
      exact ⟨1, width.toNat, height.toNat, Or.inl rfl, by omega, by omega,
        fun hcontra => absurd hcontra (by norm_num),
        Or.inl ⟨by simp [hwn], rfl, rfl, by simp [hhn]⟩⟩
    · rw [if_neg hcmp]
      exact ⟨1, height.toNat, width.toNat, Or.inl rfl, by omega, by omega,
        fun hcontra => absurd hcontra (by norm_num),
        Or.inr ⟨rfl, by simp [hhn], by simp [hwn], rfl⟩⟩
  intro s hs
  have hN : NormArgs s := by
    induction hs with
    | refl => exact hroot
    | tail h1 h2 ih => exact (normArgs_children ih _ h2).1
  obtain ⟨σ, w, h, hσ, hw', hh', _, hor⟩ := hN
  rcases hor with ⟨e1, e2, e3, e4⟩ | ⟨e1, e2, e3, e4⟩ <;>
    rw [e1, e2, e3, e4] <;>
    constructor <;>
    simp only [add_zero, zero_add, abs_sigma_mul hσ] <;>
    omega

/-- Witness for C8: at size 3×2, both the root invocation and an actual
child of the root have positive extents. -/
theorem claim_C8_witness :
    ((1 : ℤ) ≤ 3 ∧ (1 : ℤ) ≤ 2 ∧
      Reachable (gilbertRoot 3 2) ⟨0, 0, 0, 1, 1, 0⟩) ∧
    (1 ≤ |(0 : ℤ) + 1| ∧ 1 ≤ |(1 : ℤ) + 0|) :=
  ⟨⟨by norm_num, by norm_num,
    Relation.ReflTransGen.single (by decide)⟩,
   claim_C8_positive_extents 3 2 (by norm_num) (by norm_num) ⟨0, 0, 0, 1, 1, 0⟩
     (Relation.ReflTransGen.single (by decide))⟩

/-- C10: the recursive generator terminates for every invocation reachable
from `gilbert2d` with positive dimensions: the root run completes within
fuel `width*height` because every recursive call strictly decreases the
area of the sub-rectangle spanned by the two step vectors. -/
theorem claim_C10_termination :
    (∀ width height : ℤ, 1 ≤ width → 1 ≤ height → ∃ l, gilbert2d width height = some l) ∧
    (∀ a : GArgs, NormArgs a → ∀ b ∈ genChildren a, genArea b < genArea a) := by
  constructor
  · intro width height hw hh
    obtain ⟨l, h1, _⟩ := gilbert2d_spec width height hw hh
    exact ⟨l, h1⟩
  · intro a hN b hb
    exact (normArgs_children hN b hb).2

/-- Witness for C10 at size 2×2 and a concrete recursive step. -/
theorem claim_C10_witness :
    ((1 : ℤ) ≤ 2 ∧ (1 : ℤ) ≤ 2 ∧ ∃ l, gilbert2d 2 2 = some l) ∧
    (NormArgs ⟨0, 0, 2, 0, 0, 2⟩ ∧ (⟨0, 0, 0, 1, 1, 0⟩ : GArgs) ∈ genChildren ⟨0, 0, 2, 0, 0, 2⟩ ∧
      genArea ⟨0, 0, 0, 1, 1, 0⟩ < genArea ⟨0, 0, 2, 0, 0, 2⟩) := by
  constructor
  · exact ⟨by norm_num, by norm_num, claim_C10_termination.1 2 2 (by norm_num) (by norm_num)⟩
  · have hN : NormArgs ⟨0, 0, 2, 0, 0, 2⟩ :=
      ⟨1, 2, 2, Or.inl rfl, by norm_num, by norm_num, fun hcontra => absurd hcontra (by norm_num),
        Or.inl ⟨by norm_num, rfl, rfl, by norm_num⟩⟩
    exact ⟨hN, by decide, claim_C10_termination.2 _ hN _ (by decide)⟩

theorem mem_of_mem_getLast {α : Type} {l : List α} {x : α} (h : x ∈ l.getLast?) : x ∈ l := by
  obtain ⟨hne, rfl⟩ := List.mem_getLast?_eq_getLast h
  exact List.getLast_mem hne

theorem pixel_shuffle_nonpos (n isEncrypt : ℤ) (hn : n ≤ 0) (idxPtr : ℤ → ℤ)
    (srcPtr dstPtr : ℤ → ℕ) :
    pixel_shuffle n isEncrypt idxPtr srcPtr dstPtr = (dstPtr, [100]) := by
  unfold pixel_shuffle shuffleLoop
  have h0 : n.toNat = 0 := by omega
  rw [h0]
  simp

/-- C9 counterexample: with `totalPixels = 0` the call is not a complete
no-op — it still writes 100 to the progress counter (C line 166 runs
unconditionally), so the observable progress state changes. -/
theorem claim_C9_counterexample :
    (pixel_shuffle 0 1 (fun _ => 0) (fun _ => 0) (fun _ => 0)).2 ≠ ([] : List ℤ) ∧
    (pixel_shuffle 0 1 (fun _ => 0) (fun _ => 0) (fun _ => 0)).2 = [100] := by
  have h := pixel_shuffle_nonpos 0 1 (by norm_num) (fun _ => 0) (fun _ => 0) (fun _ => 0)
  rw [h]
  exact ⟨by simp, rfl⟩

/-- C9 (amended): when `totalPixels ≤ 0` the call writes no destination
element and performs no copy; the only observable effect is the single
unconditional write of 100 to the progress counter. -/
theorem claim_C9_amended (n isEncrypt : ℤ) (hn : n ≤ 0) (idxPtr : ℤ → ℤ)
    (srcPtr dstPtr : ℤ → ℕ) :
    pixel_shuffle n isEncrypt idxPtr srcPtr dstPtr = (dstPtr, [100]) :=
  pixel_shuffle_nonpos n isEncrypt hn idxPtr srcPtr dstPtr

/-- Witness for the amended C9 at `totalPixels = -5`. -/
theorem claim_C9_witness :
    (-5 : ℤ) ≤ 0 ∧
    pixel_shuffle (-5) 0 (fun _ => 0) (fun _ => 7) (fun _ => 3) = ((fun _ => 3), [100]) :=
  ⟨by norm_num, claim_C9_amended (-5) 0 (by norm_num) (fun _ => 0) (fun _ => 7) (fun _ => 3)⟩

theorem shuffleStep_report (n off r enc : ℤ) (idx : ℤ → ℤ) (src : ℤ → ℕ)
    (st : ShuffleState) (k : ℕ) (h : (k:ℤ) = st.nextReport) :
    (shuffleStep n off r enc idx src st k).nextReport = st.nextReport + r ∧
    (shuffleStep n off r enc idx src st k).writes =
      st.writes ++ [Int.tdiv (wrap32 ((k:ℤ) * 100)) n] := by
  simp only [shuffleStep]
  rw [if_pos h]
  exact ⟨rfl, rfl⟩

theorem shuffleStep_no_report (n off r enc : ℤ) (idx : ℤ → ℤ) (src : ℤ → ℕ)
    (st : ShuffleState) (k : ℕ) (h : (k:ℤ) ≠ st.nextReport) :
    (shuffleStep n off r enc idx src st k).nextReport = st.nextReport ∧
    (shuffleStep n off r enc idx src st k).writes = st.writes := by
  simp only [shuffleStep]
  rw [if_neg h]
  exact ⟨rfl, rfl⟩

theorem foldl_no_report (n off r enc : ℤ) (idx : ℤ → ℤ) (src : ℤ → ℕ) :
    ∀ (L : List ℕ) (st : ShuffleState), (∀ k ∈ L, (k:ℤ) ≠ st.nextReport) →
      ((L.foldl (shuffleStep n off r enc idx src) st).nextReport = st.nextReport ∧
       (L.foldl (shuffleStep n off r enc idx src) st).writes = st.writes) := by
  intro L
  induction L with
  | nil => intro st _; exact ⟨rfl, rfl⟩
  | cons k L ih =>
      intro st h
      rw [List.foldl_cons]
      obtain ⟨h1, h2⟩ := shuffleStep_no_report n off r enc idx src st k (h k (by simp))
      obtain ⟨h3, h4⟩ := ih (shuffleStep n off r enc idx src st k)
        (fun j hj => by rw [h1]; exact h j (by simp [hj]))
      rw [h3, h4, h1, h2]
      exact ⟨rfl, rfl⟩

theorem shuffleLoop_writes (n offset ri isEnc : ℤ) (idxPtr : ℤ → ℤ) (srcPtr : ℤ → ℕ)
    (hn : 1 ≤ n) (hn2 : n ≤ 21474837) :
    ∀ (m : ℕ), (m : ℤ) ≤ n → ∀ (st0 : ShuffleState), st0.writes = [] →
      (∀ v ∈ (shuffleLoop n offset ri isEnc idxPtr srcPtr m st0).writes,
        ∃ i : ℕ, i < m ∧ v = ((i : ℤ) * 100) / n) ∧
      List.Chain' (· ≤ ·) (shuffleLoop n offset ri isEnc idxPtr srcPtr m st0).writes := by
  intro m
  induction m with
  | zero =>
      intro _ st0 h0
      unfold shuffleLoop
      simp [h0]
  | succ k ihk =>
      intro hm st0 h0
      obtain ⟨ihmem, ihchain⟩ := ihk (by omega) st0 h0
      have hstep : shuffleLoop n offset ri isEnc idxPtr srcPtr (k + 1) st0 =
          shuffleStep n offset ri isEnc idxPtr srcPtr
            (shuffleLoop n offset ri isEnc idxPtr srcPtr k st0) k := by
        unfold shuffleLoop
        rw [List.range_succ, List.foldl_append]
        rfl
      have hk0 : (0:ℤ) ≤ (k : ℤ) * 100 := by omega
      have hw : wrap32 ((k : ℤ) * 100) = (k : ℤ) * 100 := by
        unfold wrap32
        omega
      have ht : Int.tdiv (wrap32 ((k : ℤ) * 100)) n = ((k : ℤ) * 100) / n := by
        rw [hw, Int.tdiv_eq_ediv hk0 (by omega : (0:ℤ) ≤ n)]
      rw [hstep]
      by_cases hrep : (k : ℤ) = (shuffleLoop n offset ri isEnc idxPtr srcPtr k st0).nextReport
      · obtain ⟨-, h2⟩ := shuffleStep_report n offset ri isEnc idxPtr srcPtr
          (shuffleLoop n offset ri isEnc idxPtr srcPtr k st0) k hrep
        rw [h2, ht]
        constructor
        · intro v hv
          simp only [List.mem_append, List.mem_singleton] at hv
          rcases hv with hv | rfl
          · obtain ⟨i, hi, rfl⟩ := ihmem _ hv
            exact ⟨i, by omega, rfl⟩
          · exact ⟨k, by omega, rfl⟩
        · refine List.Chain'.append ihchain (List.chain'_singleton _) ?_
          intro p hp q hq
          rw [List.head?_cons, Option.mem_some_iff] at hq
          subst hq
          obtain ⟨i, hi, rfl⟩ := ihmem _ (mem_of_mem_getLast hp)
          exact Int.ediv_le_ediv (by omega) (by omega)
      · obtain ⟨-, h2⟩ := shuffleStep_no_report n offset ri isEnc idxPtr srcPtr
          (shuffleLoop n offset ri isEnc idxPtr srcPtr k st0) k hrep
        rw [h2]
        exact ⟨fun v hv => (fun ⟨i, hi, he⟩ => ⟨i, by omega, he⟩) (ihmem v hv), ihchain⟩

theorem shuffleLoop_periodic (n off enc : ℤ) (idx : ℤ → ℤ) (src : ℤ → ℕ)
    (r : ℕ) (hr : 1 ≤ r) (d0 : ℤ → ℕ) :
    ∀ t : ℕ,
      (shuffleLoop n off (r:ℤ) enc idx src (r * t) ⟨d0, 0, []⟩).nextReport = (r:ℤ) * t ∧
      (shuffleLoop n off (r:ℤ) enc idx src (r * t) ⟨d0, 0, []⟩).writes =
        (List.range t).map (fun j => Int.tdiv (wrap32 (((r * j : ℕ) : ℤ) * 100)) n) := by
  obtain ⟨r', rfl⟩ := Nat.exists_eq_add_of_le hr
  intro t
  induction t with
  | zero => exact ⟨by simp [shuffleLoop], rfl⟩
  | succ t ih =>
      obtain ⟨ihr, ihw⟩ := ih
      have hloop : shuffleLoop n off ((1+r':ℕ):ℤ) enc idx src ((1+r') * (t+1)) ⟨d0, 0, []⟩ =
          ((List.range (1+r')).map (fun s => (1+r') * t + s)).foldl
            (shuffleStep n off ((1+r':ℕ):ℤ) enc idx src)
            (shuffleLoop n off ((1+r':ℕ):ℤ) enc idx src ((1+r') * t) ⟨d0, 0, []⟩) := by
        unfold shuffleLoop
        rw [Nat.mul_succ, List.range_add, List.foldl_append]
      have hblock : (List.range (1+r')).map (fun s => (1+r') * t + s) =
          ((1+r') * t) :: (List.range r').map (fun s => (1+r') * t + (1 + s)) := by
        have hr1 : List.range (1+r') = 0 :: (List.range r').map (fun s => 1 + s) := by
          rw [List.range_add]
          rfl
        rw [hr1, List.map_cons, List.map_map]
        rfl
      have hcast : (((1+r') * t : ℕ) : ℤ) = ((1+r':ℕ):ℤ) * (t:ℤ) := by push_cast; ring
      obtain ⟨h1, h2⟩ := shuffleStep_report n off ((1+r':ℕ):ℤ) enc idx src
        (shuffleLoop n off ((1+r':ℕ):ℤ) enc idx src ((1+r') * t) ⟨d0, 0, []⟩)
        ((1+r') * t) (by rw [ihr, hcast])
      have htl : ∀ k ∈ (List.range r').map (fun s => (1+r') * t + (1 + s)),
          (k:ℤ) ≠ (shuffleStep n off ((1+r':ℕ):ℤ) enc idx src
            (shuffleLoop n off ((1+r':ℕ):ℤ) enc idx src ((1+r') * t) ⟨d0, 0, []⟩)
            ((1+r') * t)).nextReport := by
        intro k hk
        rw [List.mem_map] at hk
        obtain ⟨s, hs, rfl⟩ := hk
        rw [List.mem_range] at hs
        rw [h1, ihr]
        push_cast
        omega
      obtain ⟨h3, h4⟩ := foldl_no_report n off ((1+r':ℕ):ℤ) enc idx src
        ((List.range r').map (fun s => (1+r') * t + (1 + s)))
        (shuffleStep n off ((1+r':ℕ):ℤ) enc idx src
          (shuffleLoop n off ((1+r':ℕ):ℤ) enc idx src ((1+r') * t) ⟨d0, 0, []⟩)
          ((1+r') * t)) htl
      constructor
      · rw [hloop, hblock, List.foldl_cons, h3, h1, ihr]
        push_cast
        ring
      · rw [hloop, hblock, List.foldl_cons, h4, h2, ihw, List.range_succ, List.map_append]
        rfl

theorem pixel_shuffle_writes_eq (n enc : ℤ) (idx : ℤ → ℤ) (src d0 : ℤ → ℕ) :
    (pixel_shuffle n enc idx src d0).2 =
      (shuffleLoop n (offsetImpl n)
        (if Int.tdiv n 20 < 1 then 1 else Int.tdiv n 20) enc idx src
        n.toNat ⟨d0, 0, []⟩).writes ++ [100] := rfl

/-- C7 counterexample: at `totalPixels = 30000000` (well inside the
wasm32 module documented domain) the 32-bit product `i * 100` of the
progress computation wraps at the later report iterations, so the
sequence written to the progress counter is 0, 5, ..., 70, -68, -63,
-58, -53, -48, 100: it leaves `[0, 100]` and is not non-decreasing,
so the claimed monotone `[0, 100]` progress fails. -/
theorem claim_C7_counterexample :
    (pixel_shuffle 30000000 1 (fun i => i) (fun _ => 0) (fun _ => 0)).2 =
      [0, 5, 10, 15, 20, 25, 30, 35, 40, 45, 50, 55, 60, 65, 70,
       -68, -63, -58, -53, -48, 100] ∧
    ¬ List.Chain' (· ≤ ·) (pixel_shuffle 30000000 1 (fun i => i) (fun _ => 0) (fun _ => 0)).2 ∧
    ¬ ∀ v ∈ (pixel_shuffle 30000000 1 (fun i => i) (fun _ => 0) (fun _ => 0)).2, 0 ≤ v := by
  have hri : (if Int.tdiv (30000000:ℤ) 20 < 1 then (1:ℤ) else Int.tdiv 30000000 20) =
      ((1500000:ℕ):ℤ) := by decide
  have hmain : (pixel_shuffle 30000000 1 (fun i => i) (fun _ => 0) (fun _ => 0)).2 =
      [0, 5, 10, 15, 20, 25, 30, 35, 40, 45, 50, 55, 60, 65, 70,
       -68, -63, -58, -53, -48, 100] := by
    rw [pixel_shuffle_writes_eq, hri,
      show ((30000000:ℤ).toNat) = 1500000 * 20 from by decide,
      (shuffleLoop_periodic 30000000 (offsetImpl 30000000) 1
        (fun i => i) (fun _ => 0) 1500000 (by norm_num) (fun _ => 0) 20).2]
    decide
  refine ⟨hmain, ?_, ?_⟩
  · rw [hmain]
    intro hch
    have h14 := List.chain'_iff_get.mp hch 14 (by norm_num)
    exact absurd h14 (by decide)
  · rw [hmain]
    intro hall
    have := hall (-68) (by simp)
    omega

/-- C7 (amended): within one `pixel_shuffle` call with
`1 ≤ totalPixels ≤ 21474837` — the range in which the 32-bit product
`i * 100` of the progress computation cannot wrap — the sequence of
values written to the progress counter is non-decreasing, every
written value lies in `[0, 100]`, and the final written value — the
counter value when the call returns — is exactly 100.  For larger
`totalPixels` the product wraps and intermediate writes go negative
(see the counterexample above). -/
theorem claim_C7_progress (n isEncrypt : ℤ) (hn : 1 ≤ n) (hbound : n ≤ 21474837)
    (idxPtr : ℤ → ℤ) (srcPtr dstPtr : ℤ → ℕ) :
    List.Chain' (· ≤ ·) (pixel_shuffle n isEncrypt idxPtr srcPtr dstPtr).2 ∧
    (∀ v ∈ (pixel_shuffle n isEncrypt idxPtr srcPtr dstPtr).2, 0 ≤ v ∧ v ≤ 100) ∧
    (pixel_shuffle n isEncrypt idxPtr srcPtr dstPtr).2.getLast? = some 100 := by
  obtain ⟨hmem, hchain⟩ := shuffleLoop_writes n (offsetImpl n)
    (if Int.tdiv n 20 < 1 then 1 else Int.tdiv n 20) isEncrypt idxPtr srcPtr hn hbound
    n.toNat (by omega) ⟨dstPtr, 0, []⟩ rfl
  have hub : ∀ v ∈ (shuffleLoop n (offsetImpl n)
      (if Int.tdiv n 20 < 1 then 1 else Int.tdiv n 20) isEncrypt idxPtr srcPtr
      n.toNat ⟨dstPtr, 0, []⟩).writes, 0 ≤ v ∧ v ≤ 100 := by
    intro v hv
    obtain ⟨i, hi, rfl⟩ := hmem v hv
    constructor
    · exact Int.ediv_nonneg (by omega) (by omega)
    · calc ((i : ℤ) * 100) / n ≤ (n * 100) / n := Int.ediv_le_ediv (by omega) (by omega)
        _ = 100 := by
            rw [Int.mul_ediv_cancel_left _ (by omega : (n : ℤ) ≠ 0)]
  refine ⟨?_, ?_, ?_⟩
  · refine List.Chain'.append hchain (List.chain'_singleton _) ?_
    intro p hp q hq
    rw [List.head?_cons, Option.mem_some_iff] at hq
    subst hq
    exact (hub p (mem_of_mem_getLast hp)).2
  · intro v hv
    simp only [pixel_shuffle, List.mem_append, List.mem_singleton] at hv
    rcases hv with hv | rfl
    · exact hub v hv
    · exact ⟨by norm_num, le_refl _⟩
  · exact List.getLast?_concat _

/-- Witness for the amended C7 at `totalPixels = 3`, encrypt mode. -/
theorem claim_C7_witness :
    ((1 : ℤ) ≤ 3 ∧ (3 : ℤ) ≤ 21474837) ∧
    (List.Chain' (· ≤ ·) (pixel_shuffle 3 1 (fun i => i) (fun _ => 0) (fun _ => 0)).2 ∧
     (∀ v ∈ (pixel_shuffle 3 1 (fun i => i) (fun _ => 0) (fun _ => 0)).2, 0 ≤ v ∧ v ≤ 100) ∧
     (pixel_shuffle 3 1 (fun i => i) (fun _ => 0) (fun _ => 0)).2.getLast? = some 100) :=
  ⟨⟨by norm_num, by norm_num⟩,
   claim_C7_progress 3 1 (by norm_num) (by norm_num) (fun i => i) (fun _ => 0) (fun _ => 0)⟩

theorem blAux_zero (fuel : ℕ) : blAux fuel 0 = 0 := by
  cases fuel <;> simp [blAux]

theorem blAux_spec : ∀ fuel n : ℕ, n ≤ fuel → n ≠ 0 →
    2 ^ (blAux fuel n - 1) ≤ n ∧ n < 2 ^ blAux fuel n := by
  intro fuel
  induction fuel with
  | zero => intro n h1 h2; omega
  | succ k ih =>
      intro n h1 h2
      rw [blAux, if_neg h2]
      by_cases hh : n / 2 = 0
      · have hn1 : n = 1 := by omega
        subst hn1
        rw [hh, blAux_zero]
        norm_num
      · obtain ⟨ha, hb⟩ := ih (n / 2) (by omega) hh
        have hb1 : 1 ≤ blAux k (n / 2) := by
          by_contra hc
          have h0 : blAux k (n / 2) = 0 := by omega
          rw [h0] at hb
          omega
        have e1 : 2 ^ blAux k (n / 2) = 2 ^ (blAux k (n / 2) - 1) * 2 := by
          rw [← pow_succ]
          congr 1
          omega
        have e2 : 2 ^ (blAux k (n / 2) + 1) = 2 ^ blAux k (n / 2) * 2 := pow_succ 2 _
        have e3 : blAux k (n / 2) + 1 - 1 = blAux k (n / 2) := by omega
        rw [e3]
        omega

theorem bitlen_spec (n : ℕ) (hn : n ≠ 0) : 2 ^ (bitlen n - 1) ≤ n ∧ n < 2 ^ bitlen n :=
  blAux_spec n n le_rfl hn

theorem rhe2p_err (m : ℤ) (s : ℕ) : |rhe2p m s * 2 ^ s - m| * 2 ≤ 2 ^ s := by
  have hd : (0:ℤ) < 2 ^ s := by positivity
  have hr0 : 0 ≤ m % 2 ^ s := Int.emod_nonneg m (by omega)
  have hrd : m % 2 ^ s < 2 ^ s := Int.emod_lt_of_pos m hd
  have hme : m % 2 ^ s = m - 2 ^ s * (m / 2 ^ s) := Int.emod_def m (2 ^ s)
  simp only [rhe2p]
  split_ifs with h1 h2 h3
  · have he : m / 2 ^ s * 2 ^ s - m = -(m % 2 ^ s) := by rw [hme]; ring
    rw [he, abs_neg, abs_of_nonneg hr0]
    linarith
  · have he : (m / 2 ^ s + 1) * 2 ^ s - m = 2 ^ s - m % 2 ^ s := by rw [hme]; ring
    rw [he, abs_of_nonneg (by linarith)]
    linarith
  · have he : m / 2 ^ s * 2 ^ s - m = -(m % 2 ^ s) := by rw [hme]; ring
    rw [he, abs_neg, abs_of_nonneg hr0]
    linarith
  · have he : (m / 2 ^ s + 1) * 2 ^ s - m = 2 ^ s - m % 2 ^ s := by rw [hme]; ring
    rw [he, abs_of_nonneg (by linarith)]
    linarith

theorem rhe2p_nonneg {m : ℤ} (hm : 0 ≤ m) (s : ℕ) : 0 ≤ rhe2p m s := by
  have hq : 0 ≤ m / 2 ^ s := Int.ediv_nonneg hm (by positivity)
  simp only [rhe2p]
  split_ifs <;> omega

theorem Dy.val_nonneg {d : Dy} (h : 0 ≤ d.m) : 0 ≤ d.val := by
  unfold Dy.val
  exact mul_nonneg (by exact_mod_cast h) (le_of_lt (zpow_pos (by norm_num) d.e))

theorem posRoundDy_nonneg {m : ℤ} (hm : 0 ≤ m) (e : ℤ) : 0 ≤ (posRoundDy m e).m := by
  simp only [posRoundDy]
  split_ifs
  · exact hm
  · exact rhe2p_nonneg hm _


theorem posRoundDy_err {m : ℤ} (hm : 0 < m) (e : ℤ) :
    |(posRoundDy m e).val - (Dy.mk m e).val| ≤ (Dy.mk m e).val * (2:ℚ) ^ (-53 : ℤ) := by
  simp only [posRoundDy]
  split_ifs with hb
  · simp only [sub_self, abs_zero]
    exact mul_nonneg (Dy.val_nonneg (le_of_lt hm)) (le_of_lt (zpow_pos (by norm_num) _))
  · push_neg at hb
    have hmt : (m.toNat : ℤ) = m := Int.toNat_of_nonneg (le_of_lt hm)
    have hlow : (2:ℤ) ^ (bitlen m.toNat - 53 + 52) ≤ m := by
      have h1 := (bitlen_spec m.toNat (by omega)).1
      have h2 : ((2:ℤ)) ^ (bitlen m.toNat - 1) ≤ (m.toNat : ℤ) := by exact_mod_cast h1
      rw [hmt] at h2
      have he : bitlen m.toNat - 53 + 52 = bitlen m.toNat - 1 := by omega
      rw [he]
      exact h2
    have key_int : |rhe2p m (bitlen m.toNat - 53) * 2 ^ (bitlen m.toNat - 53) - m| * 2 ^ 53 ≤ m := by
      calc |rhe2p m (bitlen m.toNat - 53) * 2 ^ (bitlen m.toNat - 53) - m| * 2 ^ 53
          = |rhe2p m (bitlen m.toNat - 53) * 2 ^ (bitlen m.toNat - 53) - m| * 2 * 2 ^ 52 := by
            ring
        _ ≤ 2 ^ (bitlen m.toNat - 53) * 2 ^ 52 :=
            mul_le_mul_of_nonneg_right (rhe2p_err m _) (by positivity)
        _ = 2 ^ (bitlen m.toNat - 53 + 52) := (pow_add 2 _ 52).symm
        _ ≤ m := hlow
    have keyq : |(rhe2p m (bitlen m.toNat - 53) : ℚ) * 2 ^ (bitlen m.toNat - 53) - (m:ℚ)| ≤
        (m:ℚ) * (2:ℚ) ^ (-53 : ℤ) := by
      have hc : |(rhe2p m (bitlen m.toNat - 53) : ℚ) * 2 ^ (bitlen m.toNat - 53) - (m:ℚ)| * 2 ^ 53 ≤
          (m:ℚ) := by
        exact_mod_cast key_int
      have h53 : (2:ℚ) ^ (-53 : ℤ) = ((2:ℚ) ^ (53:ℕ))⁻¹ := by
        rw [zpow_neg]
        norm_num
      rw [h53, ← div_eq_mul_inv, le_div_iff₀ (by positivity)]
      exact hc
    simp only [Dy.val]
    have hz : (2:ℚ) ^ (e + ((bitlen m.toNat : ℤ) - 53)) =
        2 ^ e * 2 ^ ((bitlen m.toNat - 53 : ℕ)) := by
      rw [zpow_add₀ (two_ne_zero)]
      congr 1
      rw [show ((bitlen m.toNat : ℤ) - 53) = ((bitlen m.toNat - 53 : ℕ) : ℤ) by omega,
        zpow_natCast]
    rw [hz]
    have hfac : (rhe2p m (bitlen m.toNat - 53) : ℚ) * (2 ^ e * 2 ^ (bitlen m.toNat - 53)) -
        (m:ℚ) * 2 ^ e =
        ((rhe2p m (bitlen m.toNat - 53) : ℚ) * 2 ^ (bitlen m.toNat - 53) - (m:ℚ)) * 2 ^ e := by
      ring
    rw [hfac, abs_mul, abs_of_pos (zpow_pos (show (0:ℚ) < 2 by norm_num) e)]
    calc |(rhe2p m (bitlen m.toNat - 53) : ℚ) * 2 ^ (bitlen m.toNat - 53) - (m:ℚ)| * 2 ^ e ≤
        (m:ℚ) * (2:ℚ) ^ (-53 : ℤ) * 2 ^ e :=
          mul_le_mul_of_nonneg_right keyq (le_of_lt (zpow_pos (show (0:ℚ) < 2 by norm_num) e))
      _ = (m:ℚ) * 2 ^ e * (2:ℚ) ^ (-53 : ℤ) := by ring

theorem roundDy_m_nonneg {d : Dy} (h : 0 ≤ d.m) : 0 ≤ (roundDy d).m := by
  simp only [roundDy]
  split_ifs with h0 hneg
  · norm_num
  · exact absurd hneg (by omega)
  · exact posRoundDy_nonneg h d.e

theorem roundDy_err {d : Dy} (h : 0 ≤ d.m) :
    |(roundDy d).val - d.val| ≤ d.val * (2:ℚ) ^ (-53 : ℤ) := by
  obtain ⟨m, e⟩ := d
  simp only [roundDy] at *
  split_ifs with h0 hneg
  · subst h0
    simp [Dy.val]
  · exact absurd hneg (by omega)
  · exact posRoundDy_err (by omega) e

theorem addDy_val (a b : Dy) : (addDy a b).val = a.val + b.val := by
  obtain ⟨am, ae⟩ := a
  obtain ⟨bm, be⟩ := b
  simp only [addDy, Dy.val]
  split_ifs with h
  · push_cast
    rw [add_mul, mul_assoc, ← zpow_natCast (2:ℚ), Int.toNat_of_nonneg (by omega : (0:ℤ) ≤ be - ae),
      ← zpow_add₀ (two_ne_zero), sub_add_cancel]
  · push_cast
    rw [add_mul, mul_assoc, ← zpow_natCast (2:ℚ), Int.toNat_of_nonneg (by omega : (0:ℤ) ≤ ae - be),
      ← zpow_add₀ (two_ne_zero), sub_add_cancel]

theorem addDy_m_nonneg {a b : Dy} (ha : 0 ≤ a.m) (hb : 0 ≤ b.m) : 0 ≤ (addDy a b).m := by
  simp only [addDy]
  split_ifs
  · exact add_nonneg ha (mul_nonneg hb (by positivity))
  · exact add_nonneg (mul_nonneg ha (by positivity)) hb

theorem truncDy_nonneg {d : Dy} (h : 0 ≤ d.m) : 0 ≤ truncDy d := by
  simp only [truncDy]
  split_ifs
  · exact mul_nonneg h (by positivity)
  · exact Int.tdiv_nonneg h (by positivity)

theorem truncDy_le_val {d : Dy} (h : 0 ≤ d.m) : (truncDy d : ℚ) ≤ d.val := by
  obtain ⟨m, e⟩ := d
  simp only at h
  simp only [truncDy, Dy.val]
  split_ifs with he
  · push_cast
    rw [← zpow_natCast (2:ℚ), Int.toNat_of_nonneg he]
  · push_neg at he
    have hk : (0:ℤ) < 2 ^ (-e).toNat := by positivity
    have h1 : Int.tdiv m (2 ^ (-e).toNat) = m / 2 ^ (-e).toNat := by
      rw [Int.tdiv_eq_ediv h (by positivity)]
    have h2 : (2:ℚ) ^ e = ((2:ℚ) ^ ((-e).toNat : ℕ))⁻¹ := by
      rw [← zpow_natCast (2:ℚ), Int.toNat_of_nonneg (by omega : (0:ℤ) ≤ -e), ← zpow_neg, neg_neg]
    rw [h1, h2, ← div_eq_mul_inv, le_div_iff₀ (by positivity)]
    have h3 : m / 2 ^ (-e).toNat * 2 ^ (-e).toNat ≤ m := Int.ediv_mul_le m (by omega)
    exact_mod_cast h3

theorem goldenDy_eq : goldenDy = ⟨2783377641436328, -52⟩ := by decide

theorem goldenDy_val_lt : goldenDy.val < 0.619 := by
  rw [goldenDy_eq]
  simp only [Dy.val]
  rw [show ((-52:ℤ)) = -((52:ℕ):ℤ) from rfl, zpow_neg, zpow_natCast]
  norm_num

theorem eps_le : (2:ℚ) ^ (-53 : ℤ) ≤ 1 / 1000 := by
  rw [show ((-53:ℤ)) = -((53:ℕ):ℤ) from rfl, zpow_neg, zpow_natCast]
  norm_num

theorem eps_pos : (0:ℚ) < (2:ℚ) ^ (-53 : ℤ) := zpow_pos (by norm_num) _

theorem offsetImpl_nonneg (n : ℤ) (hn : 0 ≤ n) : 0 ≤ offsetImpl n := by
  have hgm : (0:ℤ) ≤ goldenDy.m := by rw [goldenDy_eq]; norm_num
  exact truncDy_nonneg (roundDy_m_nonneg (addDy_m_nonneg
    (roundDy_m_nonneg (mul_nonneg hgm hn)) (by norm_num)))

theorem offset_le_arith (g N P Q T ε : ℚ) (hg0 : 0 ≤ g) (hg : g < 0.619)
    (hN : 1 ≤ N) (hε0 : 0 < ε) (hε : ε ≤ 1/1000) (hP0 : 0 ≤ P)
    (hP : P - g*N ≤ g*N*ε) (hQ : Q - (P + 1/2) ≤ (P + 1/2)*ε) (hT : T ≤ Q) :
    T < N + 1 := by
  have hN0 : (0:ℚ) ≤ N := by linarith
  have hgN : (0:ℚ) ≤ g*N := mul_nonneg hg0 hN0
  have h1 : g*N*ε ≤ g*N*(1/1000) := mul_le_mul_of_nonneg_left hε hgN
  have h2 : g*N ≤ 0.619*N := mul_le_mul_of_nonneg_right hg.le hN0
  have h3 : P ≤ 0.62*N := by linarith
  have h4 : (P + 1/2)*ε ≤ (P + 1/2)*(1/1000) := mul_le_mul_of_nonneg_left hε (by linarith)
  have h5 : Q ≤ P + 1/2 + (P + 1/2)*(1/1000) := by linarith
  linarith

theorem offsetImpl_le (n : ℤ) (hn : 1 ≤ n) : offsetImpl n ≤ n := by
  have hgm : (0:ℤ) ≤ goldenDy.m := by rw [goldenDy_eq]; norm_num
  have hAm : (0:ℤ) ≤ (Dy.mk (goldenDy.m * n) goldenDy.e).m := mul_nonneg hgm (by omega)
  have hAv : (Dy.mk (goldenDy.m * n) goldenDy.e).val = goldenDy.val * n := by
    simp only [Dy.val]
    push_cast
    ring
  have hPm := roundDy_m_nonneg hAm
  have hPerr := roundDy_err hAm
  have hPv := Dy.val_nonneg hPm
  have hSm : (0:ℤ) ≤ (addDy (roundDy (Dy.mk (goldenDy.m * n) goldenDy.e)) (Dy.mk 1 (-1))).m :=
    addDy_m_nonneg hPm (by norm_num)
  have hSval : (addDy (roundDy (Dy.mk (goldenDy.m * n) goldenDy.e)) (Dy.mk 1 (-1))).val =
      (roundDy (Dy.mk (goldenDy.m * n) goldenDy.e)).val + 1/2 := by
    rw [addDy_val]
    have hv1 : (Dy.mk (1:ℤ) (-1)).val = 1/2 := by
      simp only [Dy.val]
      rw [show ((-1:ℤ)) = -((1:ℕ):ℤ) from rfl, zpow_neg, zpow_natCast]
      norm_num
    rw [hv1]
  have hQerr := roundDy_err hSm
  have hQm := roundDy_m_nonneg hSm
  have htr := truncDy_le_val hQm
  have hn1 : (1:ℚ) ≤ (n:ℚ) := by exact_mod_cast hn
  rw [hAv] at hPerr
  rw [hSval] at hQerr
  have hP1 := abs_le.mp hPerr
  have hQ1 := abs_le.mp hQerr
  have hfin : ((offsetImpl n : ℤ) : ℚ) < (n:ℚ) + 1 :=
    offset_le_arith goldenDy.val (n:ℚ)
      (roundDy (Dy.mk (goldenDy.m * n) goldenDy.e)).val
      (roundDy (addDy (roundDy (Dy.mk (goldenDy.m * n) goldenDy.e)) (Dy.mk 1 (-1)))).val
      ((offsetImpl n : ℤ) : ℚ) ((2:ℚ) ^ (-53 : ℤ))
      (Dy.val_nonneg hgm) goldenDy_val_lt hn1 eps_pos eps_le hPv hP1.2 hQ1.2 htr
  have hfin2 : offsetImpl n < n + 1 := by exact_mod_cast hfin
  omega

theorem offset_bounds (n : ℤ) (hn : 1 ≤ n) : 0 ≤ offsetImpl n ∧ offsetImpl n ≤ n :=
  ⟨offsetImpl_nonneg n (by omega), offsetImpl_le n hn⟩

theorem sqrt5_bounds :
    (2236067977499789696409173668731 : ℝ) / 10 ^ 30 < Real.sqrt 5 ∧
    Real.sqrt 5 < (2236067977499789696409173668732 : ℝ) / 10 ^ 30 := by
  constructor
  · refine (Real.lt_sqrt (by positivity)).mpr ?_
    rw [div_pow, div_lt_iff (by positivity)]
    norm_num
  · refine (Real.sqrt_lt' (by positivity)).mpr ?_
    rw [div_pow, lt_div_iff (by positivity)]
    norm_num

theorem sqrt5D_approx : |(sqrt5D.val : ℝ) - Real.sqrt 5| ≤ 1 / 2 ^ 52 := by
  have hq : sqrt5D.val = 5035177455121576 / 2 ^ 51 := by
    simp only [sqrt5D, Dy.val]
    rw [show ((-51:ℤ)) = -((51:ℕ):ℤ) from rfl, zpow_neg, zpow_natCast]
    norm_num
  rw [hq]
  push_cast
  obtain ⟨hlo, hhi⟩ := sqrt5_bounds
  rw [abs_le]
  constructor
  · nlinarith [hhi]
  · nlinarith [hlo]

/-- C6 counterexample: at `totalPixels = 133957148` the C offset
computation (`(int)(golden * totalPixels + 0.5)` in binary64 doubles,
modelled exactly by `offsetImpl`) yields 82790071, while the exact
`round(totalPixels * (sqrt 5 - 1) / 2)` is 82790070: the claimed
equality with the exact rounding fails. -/
theorem claim_C6_counterexample :
    offsetImpl 133957148 = 82790071 ∧
    round ((133957148 : ℝ) * (Real.sqrt 5 - 1) / 2) = 82790070 := by
  refine ⟨by decide, ?_⟩
  obtain ⟨hlo, hhi⟩ := sqrt5_bounds
  rw [round_eq, Int.floor_eq_iff]
  constructor
  · push_cast
    nlinarith [hlo]
  · push_cast
    nlinarith [hhi]

/-- C6 (amended): the rotation offset is the value of the C double
expression `(int)(golden * totalPixels + 0.5)` (`offsetImpl`), which can
drift from the exact `round(totalPixels * (sqrt 5 - 1) / 2)`; at
`totalPixels = 16` the two agree and the offset equals 10. -/
theorem claim_C6_amended :
    offsetImpl 16 = 10 ∧ round ((16 : ℝ) * (Real.sqrt 5 - 1) / 2) = 10 := by
  refine ⟨by decide, ?_⟩
  obtain ⟨hlo, hhi⟩ := sqrt5_bounds
  rw [round_eq, Int.floor_eq_iff]
  constructor
  · push_cast
    nlinarith [hlo]
  · push_cast
    nlinarith [hhi]

theorem shuffleStep_dst (n off ri enc : ℤ) (idx : ℤ → ℤ) (src : ℤ → ℕ)
    (st : ShuffleState) (k : ℕ) :
    (shuffleStep n off ri enc idx src st k).dst = updSeq n off enc idx src st.dst k := by
  simp only [shuffleStep, updSeq, jmap]
  split_ifs <;> rfl

theorem shuffleLoop_dst (n off ri enc : ℤ) (idx : ℤ → ℤ) (src : ℤ → ℕ) :
    ∀ (m : ℕ) (st : ShuffleState),
      (shuffleLoop n off ri enc idx src m st).dst =
        (List.range m).foldl (updSeq n off enc idx src) st.dst := by
  intro m
  induction m with
  | zero => intro st; rfl
  | succ k ih =>
      intro st
      have hL : shuffleLoop n off ri enc idx src (k+1) st =
          shuffleStep n off ri enc idx src (shuffleLoop n off ri enc idx src k st) k := by
        unfold shuffleLoop
        rw [List.range_succ, List.foldl_append]
        rfl
      rw [hL, shuffleStep_dst, ih st, List.range_succ, List.foldl_append]
      rfl

theorem foldl_update_last (w : ℕ → ℤ) (v : ℕ → ℕ) :
    ∀ (m : ℕ) (d0 : ℤ → ℕ) (k : ℕ), k < m → (∀ k', k < k' → k' < m → w k' ≠ w k) →
      (List.range m).foldl (fun d k => Function.update d (w k) (v k)) d0 (w k) = v k := by
  intro m
  induction m with
  | zero => intro d0 k hk _; omega
  | succ j ih =>
      intro d0 k hk hlater
      rw [List.range_succ, List.foldl_append]
      simp only [List.foldl_cons, List.foldl_nil]
      by_cases hkj : k = j
      · subst hkj
        rw [Function.update_same]
      · have hne : w k ≠ w j := Ne.symm (hlater j (by omega) (by omega))
        rw [Function.update_noteq hne]
        exact ih d0 k (by omega) (fun i h1 h2 => hlater i h1 (by omega))

theorem updSeq_enc (n off enc : ℤ) (henc : enc ≠ 0) (idx : ℤ → ℤ) (src : ℤ → ℕ) :
    updSeq n off enc idx src =
      fun d (k : ℕ) => Function.update d (idx (jmap n off k)) (src (idx (k:ℤ))) := by
  funext d k
  simp only [updSeq, if_pos henc]

theorem updSeq_dec (n off : ℤ) (idx : ℤ → ℤ) (src : ℤ → ℕ) :
    updSeq n off 0 idx src =
      fun d (k : ℕ) => Function.update d (idx (k:ℤ)) (src (idx (jmap n off k))) := by
  funext d k
  simp only [updSeq]
  rw [if_neg (by omega)]

theorem jmap_mem {n off : ℤ} (h0 : 0 ≤ off) (hoff : off ≤ n) {k : ℕ} (hk : (k:ℤ) < n) :
    0 ≤ jmap n off k ∧ jmap n off k < n := by
  unfold jmap
  split_ifs <;> omega

theorem jmap_inj {n off : ℤ} (h0 : 0 ≤ off) (hoff : off ≤ n) {k1 k2 : ℕ}
    (h1 : (k1:ℤ) < n) (h2 : (k2:ℤ) < n) (he : jmap n off k1 = jmap n off k2) : k1 = k2 := by
  unfold jmap at he
  split_ifs at he <;> omega

theorem encrypt_dst (n : ℤ) (hn : 1 ≤ n) (idx : ℤ → ℤ)
    (hinj : ∀ i j : ℤ, 0 ≤ i → i < n → 0 ≤ j → j < n → idx i = idx j → i = j)
    (src d0 : ℤ → ℕ) (k : ℕ) (hk : (k:ℤ) < n) :
    (pixel_shuffle n 1 idx src d0).1 (idx (jmap n (offsetImpl n) k)) = src (idx k) := by
  obtain ⟨hof0, hofn⟩ := offset_bounds n hn
  have hps : (pixel_shuffle n 1 idx src d0).1 =
      (List.range n.toNat).foldl
        (fun d (j : ℕ) => Function.update d (idx (jmap n (offsetImpl n) j)) (src (idx (j:ℤ)))) d0 := by
    show (shuffleLoop n (offsetImpl n) _ 1 idx src n.toNat ⟨d0, 0, []⟩).dst = _
    rw [shuffleLoop_dst, updSeq_enc n (offsetImpl n) 1 (by omega) idx src]
  rw [hps]
  refine foldl_update_last _ _ n.toNat d0 k (by omega) ?_
  intro k' hkk' hk'm he
  have hk' : (k':ℤ) < n := by omega
  have hm1 := jmap_mem hof0 hofn hk
  have hm2 := jmap_mem hof0 hofn hk'
  have := hinj _ _ hm2.1 hm2.2 hm1.1 hm1.2 he
  have := jmap_inj hof0 hofn hk' hk this
  omega

/-- C2: for every `totalPixels ≥ 1`, every index array that is a
permutation of `[0, totalPixels)` and every source buffer, running
`pixel_shuffle` in encrypt mode and then in decrypt mode with the same
parameters returns the destination buffer equal to the source buffer at
every index in `[0, totalPixels)`. -/
theorem claim_C2_roundtrip (n : ℤ) (hn : 1 ≤ n) (idx : ℤ → ℤ)
    (hrange : ∀ i : ℤ, 0 ≤ i → i < n → 0 ≤ idx i ∧ idx i < n)
    (hinj : ∀ i j : ℤ, 0 ≤ i → i < n → 0 ≤ j → j < n → idx i = idx j → i = j)
    (src dst1 dst2 : ℤ → ℕ) :
    ∀ p : ℤ, 0 ≤ p → p < n →
      (pixel_shuffle n 0 idx (pixel_shuffle n 1 idx src dst1).1 dst2).1 p = src p := by
  intro p hp0 hpn
  -- surjectivity of idx on [0,n)
  have hsub : (Finset.Ico (0:ℤ) n).image idx ⊆ Finset.Ico 0 n := by
    intro x hx
    rw [Finset.mem_image] at hx
    obtain ⟨i, hi, rfl⟩ := hx
    rw [Finset.mem_Ico] at hi ⊢
    exact hrange i hi.1 hi.2
  have hcard : (Finset.Ico (0:ℤ) n).card ≤ ((Finset.Ico (0:ℤ) n).image idx).card := by
    rw [Finset.card_image_of_injOn]
    intro i hi j hj hij
    rw [Finset.mem_coe, Finset.mem_Ico] at hi hj
    exact hinj i j hi.1 hi.2 hj.1 hj.2 hij
  have heq := Finset.eq_of_subset_of_card_le hsub hcard
  have hpmem : p ∈ (Finset.Ico (0:ℤ) n).image idx := by
    rw [heq, Finset.mem_Ico]
    exact ⟨hp0, hpn⟩
  rw [Finset.mem_image] at hpmem
  obtain ⟨i, hi, rfl⟩ := hpmem
  rw [Finset.mem_Ico] at hi
  -- i as a natural number
  obtain ⟨k, rfl⟩ : ∃ k : ℕ, (k:ℤ) = i := ⟨i.toNat, Int.toNat_of_nonneg hi.1⟩
  obtain ⟨hof0, hofn⟩ := offset_bounds n hn
  -- decrypt pass characterization
  have hps : (pixel_shuffle n 0 idx (pixel_shuffle n 1 idx src dst1).1 dst2).1 =
      (List.range n.toNat).foldl
        (fun d (j : ℕ) => Function.update d (idx (j:ℤ))
          ((pixel_shuffle n 1 idx src dst1).1 (idx (jmap n (offsetImpl n) j)))) dst2 := by
    show (shuffleLoop n (offsetImpl n) _ 0 idx _ n.toNat ⟨dst2, 0, []⟩).dst = _
    rw [shuffleLoop_dst, updSeq_dec n (offsetImpl n) idx _]
  rw [hps]
  have hwk : (List.range n.toNat).foldl
      (fun d (j : ℕ) => Function.update d (idx (j:ℤ))
        ((pixel_shuffle n 1 idx src dst1).1 (idx (jmap n (offsetImpl n) j)))) dst2 (idx (k:ℤ)) =
      (pixel_shuffle n 1 idx src dst1).1 (idx (jmap n (offsetImpl n) k)) := by
    refine foldl_update_last _ _ n.toNat dst2 k (by omega) ?_
    intro k' h1 h2 he
    have := hinj _ _ (by omega) (by omega) (by omega) (by omega) he
    omega
  rw [hwk]
  exact encrypt_dst n hn idx hinj src dst1 k hi.2

/-- Witness for C2 at `totalPixels = 2` with the identity index array. -/
theorem claim_C2_witness :
    (1:ℤ) ≤ 2 ∧
    (pixel_shuffle 2 0 (fun i => i)
      (pixel_shuffle 2 1 (fun i => i) (fun p => (p + 3).toNat) (fun _ => 0)).1
      (fun _ => 0)).1 1 = ((1:ℤ) + 3).toNat :=
  ⟨by norm_num,
   claim_C2_roundtrip 2 (by norm_num) (fun i => i) (fun i h1 h2 => ⟨h1, h2⟩)
     (fun i j _ _ _ _ h => h) (fun p => (p + 3).toNat) (fun _ => 0) (fun _ => 0)
     1 (by norm_num) (by norm_num)⟩
